import Mathlib

/-! # Tree walker of go-git: a shallow embedding

The development embeds `tree_walker.go` (the explicit-stack, depth-first walker over
nested tree objects) together with the three functions of Go's standard `path`
package that it calls (`Split`, `Clean`, `Join`).

Go strings are byte sequences.  The `path` functions only ever compare bytes against
the ASCII bytes `/` and `.`, so a string is embedded as a list of characters.
-/

namespace GoGit

/-- A Go `string`. -/
abbrev GoString := List Char

/-! ## Package `path` of the Go standard library -/

namespace path

/-- The inner loop `for out.w > dotdot && out.index(out.w) != '/' { out.w-- }` of
`Clean`, run on the write index `w` of the buffer `buf`; returns the final `w`. -/
def backtrack (buf : List Char) (dotdot : Nat) : Nat → Nat
  | 0 => 0
  | w + 1 =>
    if w + 1 > dotdot && buf[w + 1]? != some '/' then backtrack buf dotdot w else w + 1

/-- The main loop `for r < n { switch ... }` of `Clean`.  `rest` is the unread input
`path[r:]`, `out` the bytes written so far (`buf[:w]`), `dotdot` the index where a
`..` element must stop.  Every iteration reads at least one byte, so `rest.length`
iterations always suffice. -/
def cleanLoop (rooted : Bool) : Nat → List Char → List Char → Nat → List Char
  | 0, _, out, _ => out
  | fuel + 1, rest, out, dotdot =>
    if rest.length = 0 then out
    else if rest[0]? = some '/' then
      -- empty path element
      cleanLoop rooted fuel (rest.drop 1) out dotdot
    else if rest[0]? = some '.' ∧ (rest.length = 1 ∨ rest[1]? = some '/') then
      -- . element
      cleanLoop rooted fuel (rest.drop 1) out dotdot
    else if rest[0]? = some '.' ∧ rest[1]? = some '.' ∧
        (rest.length = 2 ∨ rest[2]? = some '/') then
      -- .. element: remove to last /
      if out.length > dotdot then
        -- can backtrack
        cleanLoop rooted fuel (rest.drop 2)
          (out.take (backtrack out dotdot (out.length - 1))) dotdot
      else if !rooted then
        -- cannot backtrack, but not rooted, so append .. element
        let out1 := if out.length > 0 then out ++ ['/'] else out
        let out2 := out1 ++ ['.', '.']
        cleanLoop rooted fuel (rest.drop 2) out2 out2.length
      else
        cleanLoop rooted fuel (rest.drop 2) out dotdot
    else
      -- real path element: add slash if needed, then copy the element
      let out1 :=
        if (rooted ∧ out.length ≠ 1) ∨ (!rooted ∧ out.length ≠ 0) then out ++ ['/'] else out
      cleanLoop rooted fuel (rest.dropWhile (fun c => c != '/'))
        (out1 ++ rest.takeWhile (fun c => c != '/')) dotdot

/-- Go: `func Clean(path string) string`. -/
def Clean (p : GoString) : GoString :=
  if p = [] then ['.']
  else
    let rooted : Bool := p[0]? = some '/'
    let out := if rooted then cleanLoop rooted p.length (p.drop 1) ['/'] 1
               else cleanLoop rooted p.length p [] 0
    -- Turn empty string into "."
    if out.length = 0 then ['.'] else out

/-- Go: `strings.LastIndex(s, "/")` for a one-byte separator `c`: the index of the
last occurrence of `c`, or `-1`. -/
def lastIndexByte : List Char → Char → Int
  | [], _ => -1
  | x :: xs, c =>
    let i := lastIndexByte xs c
    if i ≥ 0 then i + 1 else if x = c then 0 else -1

/-- Go: `func Split(path string) (dir, file string)`. -/
def Split (p : GoString) : GoString × GoString :=
  let i := lastIndexByte p '/'
  (p.take (i + 1).toNat, p.drop (i + 1).toNat)

/-- Go: `strings.Join(elems, "/")`. -/
def joinSlash : List GoString → GoString
  | [] => []
  | [e] => e
  | e :: es => e ++ '/' :: joinSlash es

/-- Go: `func Join(elem ...string) string`: the first non-empty element and everything
after it, joined with slashes and cleaned; the empty string if all are empty. -/
def Join : List GoString → GoString
  | [] => []
  | e :: es => if e ≠ [] then Clean (joinSlash (e :: es)) else Join es

end path

/-! ## Objects, trees and the object store -/

/-- Go `error` values.  The named ones are the sentinels the walker compares against;
`other` stands for any other error value (a failure of the object store other than
"object not found", or an ordinary failure returned by a callback). -/
inductive GoError
  | EOF
  | ErrObjectNotFound
  | ErrMaxTreeDepth
  | ErrStop
  | ErrMissingURL
  | ErrInvalidRefSpec
  | other (code : Nat)
  deriving DecidableEq, Repr

namespace core

/-- Go: `core.Hash`, an object identifier. -/
abbrev Hash := Nat

end core

/-- Modelled from the spec: a Tree Entry is one row of a Tree: name, mode/type,
target hash (the declaration of `TreeEntry` is not part of the walker's file). -/
structure TreeEntry where
  Name : GoString
  Mode : Nat
  Hash : core.Hash
  deriving DecidableEq, Repr

/-- The zero value `TreeEntry{}`. -/
def TreeEntry.zero : TreeEntry := ⟨[], 0, 0⟩

/-- Modelled from the spec: a Tree is an ordered sequence of Tree Entries (the
declaration of `Tree` is not part of the walker's file). -/
structure Tree where
  Entries : List TreeEntry
  Hash : core.Hash
  deriving DecidableEq, Repr

/-- Modelled from the spec: a decoded repository object, polymorphic over
Blob, Tree, Commit and Tag. -/
inductive Object
  | blob (h : core.Hash)
  | tree (t : Tree)
  | commit (h : core.Hash)
  | tag (h : core.Hash)
  deriving DecidableEq, Repr

/-- Modelled from the spec: the object store contract
`resolve(hash) -> Object | NotFoundFault | OtherFault`. -/
inductive Resolved
  | object (o : Object)
  | notFound
  | otherFault (code : Nat)
  deriving DecidableEq, Repr

/-- Modelled from the spec: the repository is consumed only through its one
resolution operation. -/
structure Repository where
  resolve : core.Hash → Resolved

/-- Modelled from the spec: Go's `(r *Repository) Object(h) (Object, error)`, the
resolution operation seen as a pair of results. -/
def Repository.Object (r : Repository) (h : core.Hash) : Option Object × Option GoError :=
  match r.resolve h with
  | .object o => (some o, none)
  | .notFound => (none, some .ErrObjectNotFound)
  | .otherFault c => (none, some (.other c))

/-- Modelled from the spec: a Tree Entry Iterator is a cursor
`{owning Tree, next-index}`. -/
structure treeEntryIter where
  t : Tree
  pos : Nat
  deriving DecidableEq, Repr

/-- Modelled from the spec: the iterator sequentially yields the entries of one tree,
advances monotonically, and is exhausted when the index passes the entry count.
Returns the advanced iterator, the entry and the error. -/
def treeEntryIter.Next (iter : treeEntryIter) : treeEntryIter × TreeEntry × Option GoError :=
  if iter.pos ≥ iter.t.Entries.length then (iter, TreeEntry.zero, some .EOF)
  else ({ iter with pos := iter.pos + 1 }, iter.t.Entries.getD iter.pos TreeEntry.zero, none)

/-! ## The tree walker -/

/-- Go: `type TreeWalker struct`. -/
structure TreeWalker where
  stack : List treeEntryIter
  base : GoString
  r : Repository
  t : Tree

/-- Go: `func NewTreeWalker(r *Repository, t *Tree) *TreeWalker`. -/
def NewTreeWalker (r : Repository) (t : Tree) : TreeWalker :=
  { stack := [] ++ [⟨t, 0⟩], base := [], r := r, t := t }

/-- The named results `(name, entry, obj, err)` of `Next`. -/
structure NextResult where
  name : GoString
  entry : TreeEntry
  obj : Option Object
  err : Option GoError
  deriving DecidableEq, Repr

/-- The zero values the named results hold when `Next` is entered. -/
def NextResult.zero : NextResult := ⟨[], TreeEntry.zero, none, none⟩

/-- The `for` loop of `Next` followed by the code after it.  The first argument bounds
the number of loop iterations; `none` means that the call did not return (the bound
was used up, or `w.stack[current]` was out of range). -/
def nextLoop (maxTreeDepth : Nat) :
    Nat → TreeWalker → NextResult → Option (NextResult × TreeWalker)
  | 0, _, _ => none
  | fuel + 1, w, v =>
    let current : Int := (w.stack.length : Int) - 1
    if current < 0 then
      -- Nothing left on the stack so we're finished
      some ({ v with err := some .EOF }, w)
    else if current > (maxTreeDepth : Int) then
      -- We're probably following bad data or some self-referencing tree
      some ({ v with err := some .ErrMaxTreeDepth }, w)
    else
      match w.stack[current.toNat]? with
      | none => none
      | some top =>
        let (top1, entry, err) := top.Next
        let w1 := { w with stack := w.stack.set current.toNat top1 }
        if err = some .EOF then
          -- Finished with the current tree, move back up to the parent
          let w2 := { w1 with stack := w1.stack.take current.toNat }
          let w3 := { w2 with base := (path.Split w2.base).1 }
          let w4 := { w3 with base := path.Clean w3.base }
          nextLoop maxTreeDepth fuel w4 { v with entry := entry, err := err }
        else if err ≠ none then
          some ({ v with entry := entry, err := err }, w1)
        else
          let (obj, err) := w1.r.Object entry.Hash
          if err = some .ErrObjectNotFound then
            nextLoop maxTreeDepth fuel w1 { v with entry := entry, obj := obj, err := none }
          else
            let name := path.Join [w1.base, entry.Name]
            if err ≠ none then
              some (⟨name, entry, obj, err⟩, w1)
            else
              match obj with
              | some (.tree t) =>
                some (⟨name, entry, obj, err⟩,
                  { w1 with stack := w1.stack ++ [⟨t, 0⟩],
                            base := path.Join [w1.base, entry.Name] })
              | _ => some (⟨name, entry, obj, err⟩, w1)

/-- The number of loop iterations a call of `Next` can need: one per frame to pop, one
per entry not yet consumed, and the one that returns. -/
def loopBound (w : TreeWalker) : Nat :=
  w.stack.length + (w.stack.map (fun f => f.t.Entries.length - f.pos)).sum + 1

/-- Go: `func (w *TreeWalker) Next() (name string, entry TreeEntry, obj Object, err error)`. -/
def Next (maxTreeDepth : Nat) (w : TreeWalker) : Option (NextResult × TreeWalker) :=
  nextLoop maxTreeDepth (loopBound w) w NextResult.zero

/-- The callback `cb func(fullpath string, e TreeEntry) error` of `ForEach`.  A Go
closure may keep state, so its result may depend on everything it has been called
with before: it is a function of the list of its earlier invocations and of the
arguments of the current one. -/
abbrev Callback := List (GoString × TreeEntry) → GoString → TreeEntry → Option GoError

/-- Go: `func (w *TreeWalker) ForEach(cb func(fullpath string, e TreeEntry) error) error`.
The first argument bounds the number of iterations of the loop (`none`: the bound was
used up, or `Next` did not return); the list records the invocations of the callback
made so far.  The result is the returned error, the walker as it is left, and the
invocations made. -/
def ForEach (maxTreeDepth : Nat) (cb : Callback) :
    Nat → TreeWalker → List (GoString × TreeEntry) →
      Option (Option GoError × TreeWalker × List (GoString × TreeEntry))
  | 0, _, _ => none
  | fuel + 1, w, log =>
    match Next maxTreeDepth w with
    | none => none
    | some (res, w1) =>
      if res.err ≠ none then
        if res.err = some .EOF then some (none, w1, log) else some (res.err, w1, log)
      else
        let err := cb log res.name res.entry
        let log1 := log ++ [(res.name, res.entry)]
        if err ≠ none then
          if err = some .ErrStop then some (none, w1, log1) else some (err, w1, log1)
        else ForEach maxTreeDepth cb fuel w1 log1

/-- Go: `func (w *TreeWalker) Tree() *Tree`. -/
def TreeWalker.Tree (w : TreeWalker) : Option Tree :=
  let current : Int := (w.stack.length : Int) - 1
  if current < 0 then none else (w.stack[current.toNat]?).map (fun f => f.t)

/-- Go: `func (w *TreeWalker) Close()`. -/
def TreeWalker.Close (w : TreeWalker) : TreeWalker :=
  { w with stack := [] }

/-- The results of `n` successive calls of `Next`, and the walker they leave. -/
def calls (maxTreeDepth : Nat) : Nat → TreeWalker → Option (List NextResult × TreeWalker)
  | 0, w => some ([], w)
  | n + 1, w =>
    match Next maxTreeDepth w with
    | none => none
    | some (res, w1) => (calls maxTreeDepth n w1).map (fun p => (res :: p.1, p.2))

/-- Repeated calls of `Next` up to and including the first one that returns an error:
the yielded results and that error.  `none` when `n` calls were not enough. -/
def walk (maxTreeDepth : Nat) : Nat → TreeWalker → Option (List NextResult × GoError)
  | 0, _ => none
  | n + 1, w =>
    match Next maxTreeDepth w with
    | none => none
    | some (res, w1) =>
      match res.err with
      | some e => some ([], e)
      | none => (walk maxTreeDepth n w1).map (fun p => (res :: p.1, p.2))

/-! ## A big-step description of the walker

`procTree` lists what successive calls of `Next` return while one tree is open,
threading `base` exactly as the loop does.  It is the tool the proofs below use to
reason about whole traversals. -/

/-- What a stretch of the traversal produces: the results of the successive calls, the
value of `base` when the stretch is over, and whether it ended with the stack deeper
than the depth guard allows. -/
structure Flow where
  events : List NextResult
  base : GoString
  deep : Bool
  deriving DecidableEq, Repr

/-- Put one more result in front. -/
def Flow.cons (ev : NextResult) (a : Flow) : Flow :=
  { a with events := ev :: a.events }

/-- Sequencing: when the first stretch did not hit the depth guard, continue with `k`
from the `base` it left. -/
def Flow.andThen (a : Flow) (k : GoString → Flow) : Flow :=
  if a.deep then a
  else ⟨a.events ++ (k a.base).events, (k a.base).base, (k a.base).deep⟩

/-- The new `base` after a frame is popped (lines 63 and 64 of `Next`). -/
def ascend (base : GoString) : GoString :=
  path.Clean (path.Split base).1

/-- The calls made while the entries `es` of an open frame are consumed; `sub` describes
the traversal of a subtree that is entered. -/
def procEntries (r : Repository) (sub : GoString → Tree → Flow) (base : GoString) :
    List TreeEntry → Flow
  | [] => ⟨[], base, false⟩
  | e :: es =>
    match r.resolve e.Hash with
    | .notFound => procEntries r sub base es
    | .otherFault c =>
      (procEntries r sub base es).cons ⟨path.Join [base, e.Name], e, none, some (.other c)⟩
    | .object (.tree t) =>
      ((sub (path.Join [base, e.Name]) t).andThen
          (fun b => procEntries r sub (ascend b) es)).cons
        ⟨path.Join [base, e.Name], e, some (.tree t), none⟩
    | .object o =>
      (procEntries r sub base es).cons ⟨path.Join [base, e.Name], e, some o, none⟩

/-- The calls made while a tree is open, when `d` frames may still be pushed before
the depth guard fires. -/
def procTree (r : Repository) : Nat → GoString → Tree → Flow
  | 0, base, _ => ⟨[], base, true⟩
  | d + 1, base, t => procEntries r (procTree r d) base t.Entries

/-- The calls made from a stack of frames, listed from the top frame down. -/
def procFrames (r : Repository) (maxTreeDepth : Nat) (base : GoString) :
    List treeEntryIter → Flow
  | [] => ⟨[], base, false⟩
  | f :: fs =>
    (procEntries r (procTree r (maxTreeDepth - fs.length)) base
        (f.t.Entries.drop f.pos)).andThen
      (fun b => procFrames r maxTreeDepth (ascend b) fs)

/-- The calls made from a walker state. -/
def procStack (maxTreeDepth : Nat) (w : TreeWalker) : Flow :=
  if maxTreeDepth + 1 < w.stack.length then ⟨[], w.base, true⟩
  else procFrames w.r maxTreeDepth w.base w.stack.reverse

/-- What `Next` returns on an empty stack. -/
def eofResult : NextResult := ⟨[], TreeEntry.zero, none, some .EOF⟩

/-- What `Next` returns when the depth guard fires. -/
def depthResult : NextResult := ⟨[], TreeEntry.zero, none, some .ErrMaxTreeDepth⟩

/-- The result every call returns once the events of a flow are used up. -/
def Flow.terminal (a : Flow) : NextResult :=
  if a.deep then depthResult else eofResult

/-- The walker with the top frame advanced past the entry it has just handed out. -/
def advanceTop (w : TreeWalker) (below : List treeEntryIter) (top : treeEntryIter) :
    TreeWalker :=
  { w with stack := below ++ [{ top with pos := top.pos + 1 }] }

/-- The error every call returns once the events of a flow are used up. -/
def Flow.lastError (a : Flow) : GoError :=
  if a.deep then .ErrMaxTreeDepth else .EOF

/-- The results up to the first one that carries an error, and that error (`term` when
no result carries one). -/
def cutAtError : List NextResult → GoError → List NextResult × GoError
  | [], term => ([], term)
  | ev :: rest, term =>
    match ev.err with
    | some e => ([], e)
    | none => (ev :: (cutAtError rest term).1, (cutAtError rest term).2)

/-! ## The reference pre-order listing -/

/-- The reference listing of a list of entries of a tree reached by the route `ρ` (the
names of the entries from the root tree down to it): every entry the store resolves,
with its own route and its object, immediately followed by the listing `sub` of the
subtree when the object is a tree; entries the store does not resolve are left out. -/
def listEntries (r : Repository)
    (sub : List GoString → Tree → List (List GoString × TreeEntry × Object))
    (ρ : List GoString) : List TreeEntry → List (List GoString × TreeEntry × Object)
  | [] => []
  | e :: es =>
    match r.resolve e.Hash with
    | .object (.tree t) =>
      (ρ ++ [e.Name], e, .tree t) :: (sub (ρ ++ [e.Name]) t ++ listEntries r sub ρ es)
    | .object o => (ρ ++ [e.Name], e, o) :: listEntries r sub ρ es
    | _ => listEntries r sub ρ es

/-- The reference pre-order listing of a tree reached by the route `ρ`, descending
through at most `d` levels of trees (the tree itself being the first level). -/
def preorder (r : Repository) :
    Nat → List GoString → Tree → List (List GoString × TreeEntry × Object)
  | 0, _, _ => []
  | d + 1, ρ, t => listEntries r (preorder r d) ρ t.Entries

/-- The tree `t` and the trees nested in it occupy at most `d` levels, `t` itself being
the first: no tree is nested `d` or more levels below `t`. -/
def withinDepth (r : Repository) : Nat → Tree → Bool
  | 0, _ => false
  | d + 1, t =>
    t.Entries.all (fun e =>
      match r.resolve e.Hash with
      | .object (.tree s) => withinDepth r d s
      | _ => true)

/-- The part of a result that does not depend on path computations. -/
def NextResult.item (v : NextResult) : TreeEntry × Option Object :=
  (v.entry, v.obj)

/-- A flow that yields only entries, those the listing `l` prescribes, and ends
normally. -/
def Flow.Lists (a : Flow) (l : List (List GoString × TreeEntry × Object)) : Prop :=
  a.deep = false ∧ (∀ ev ∈ a.events, ev.err = none) ∧
    a.events.map NextResult.item = l.map (fun y => (y.2.1, some y.2.2))

/-! ## Paths -/

/-- A single path segment: non-empty, without `/`, and neither `.` nor `..`. -/
def isSegment (s : GoString) : Prop :=
  s ≠ [] ∧ '/' ∉ s ∧ s ≠ ['.'] ∧ s ≠ ['.', '.']

instance (s : GoString) : Decidable (isSegment s) := by
  unfold isSegment; infer_instance

/-- Appending the element `x` to what `Clean` has written so far, with the separating
slash when something was written before. -/
def addElem (out x : GoString) : GoString :=
  if out.length ≠ 0 then out ++ '/' :: x else x

/-- The value of `base` stands for the route `ρ` (the names of the entries through
which the open subtrees were entered): the slash-joined names, or one of the two
spellings `""` and `"."` of the root when the route is empty. -/
def Represents (base : GoString) (ρ : List GoString) : Prop :=
  (ρ = [] ∧ (base = [] ∨ base = ['.'])) ∨ (ρ ≠ [] ∧ base = path.joinSlash ρ)

/-- The successful results among `l`, as triples (path, entry, object). -/
def yieldsOf (l : List NextResult) : List (GoString × TreeEntry × Option Object) :=
  (l.filter (fun v => v.err = none)).map (fun v => (v.name, v.entry, v.obj))

/-- The triple (path, entry, object) the reference listing prescribes for an item: the
names on the route joined by single slashes. -/
def expected (y : List GoString × TreeEntry × Object) : GoString × TreeEntry × Option Object :=
  (path.joinSlash y.1, y.2.1, some y.2.2)

/-- The successful results of a flow follow the listing `l`, with the paths the routes
prescribe; when the flow ends normally they are the whole of `l` and `base` stands for
the route `ρ` again. -/
def Flow.Routed (a : Flow) (l : List (List GoString × TreeEntry × Object))
    (ρ : List GoString) : Prop :=
  yieldsOf a.events <+: l.map expected ∧
    (a.deep = false → yieldsOf a.events = l.map expected ∧ Represents a.base ρ)

/-! ## Deleting an entry the store does not resolve -/

/-- The tree `s` with the entry at index `i` deleted when `s` is the tree `t0`, and `s`
itself otherwise. -/
def deleteEntry (t0 : Tree) (i : Nat) (s : Tree) : Tree :=
  if s = t0 then { s with Entries := s.Entries.eraseIdx i } else s

/-- Apply `f` to an object that is a tree. -/
def Object.mapTree (f : Tree → Tree) : Object → Object
  | .tree t => .tree (f t)
  | o => o

/-- The store in which every tree is replaced by its image under `f`. -/
def Repository.mapTrees (f : Tree → Tree) (r : Repository) : Repository :=
  ⟨fun h =>
    match r.resolve h with
    | .object o => .object (o.mapTree f)
    | x => x⟩

/-- Apply `f` to the object of a result when it is a tree. -/
def NextResult.mapTree (f : Tree → Tree) (v : NextResult) : NextResult :=
  { v with obj := v.obj.map (Object.mapTree f) }

/-- Apply `f` to the tree objects among the results of a flow. -/
def Flow.mapTree (f : Tree → Tree) (a : Flow) : Flow :=
  { a with events := a.events.map (NextResult.mapTree f) }

/-- The second list is the first with some entries deleted, each of them one the store
reports as not found. -/
inductive Pruned (r : Repository) : List TreeEntry → List TreeEntry → Prop
  | nil : Pruned r [] []
  | keep (e : TreeEntry) {l l1 : List TreeEntry} : Pruned r l l1 → Pruned r (e :: l) (e :: l1)
  | drop (e : TreeEntry) {l l1 : List TreeEntry} :
      r.resolve e.Hash = .notFound → Pruned r l l1 → Pruned r (e :: l) l1

/-- The tree `t` contains a chain of subtrees nested `d` levels below it. -/
def deeperThan (r : Repository) : Nat → Tree → Bool
  | 0, _ => true
  | d + 1, t =>
    t.Entries.any (fun e =>
      match r.resolve e.Hash with
      | .object (.tree s) => deeperThan r d s
      | _ => false)

/-- Every result of the flow is either an entry with the object the store resolves its
hash to, or the failure the store reported for the hash of the entry. -/
def Flow.Faithful (r : Repository) (a : Flow) : Prop :=
  ∀ ev ∈ a.events,
    (ev.err = none ∧ ∃ o, ev.obj = some o ∧ r.resolve ev.entry.Hash = .object o) ∨
    (∃ c, ev.err = some (.other c) ∧ ev.obj = none ∧ r.resolve ev.entry.Hash = .otherFault c)

/-! ## Example data -/

/-- The tree `sub` of the example: one blob `b.txt`. -/
def exSub : Tree := ⟨[⟨"b.txt".toList, 0, 3⟩], 2⟩

/-- The root tree of the example: the blob `a.txt` and the tree `sub`. -/
def exRoot : Tree := ⟨[⟨"a.txt".toList, 0, 1⟩, ⟨"sub".toList, 0, 2⟩], 10⟩

/-- The store of the example. -/
def exRepo : Repository :=
  ⟨fun h =>
    match h with
    | 1 => .object (.blob 1)
    | 2 => .object (.tree exSub)
    | 3 => .object (.blob 3)
    | _ => .notFound⟩

/-- The root tree of the example with one more entry, `gone`, whose hash the store of
the example does not resolve. -/
def exRootGap : Tree :=
  ⟨[⟨"a.txt".toList, 0, 1⟩, ⟨"gone".toList, 0, 9⟩, ⟨"sub".toList, 0, 2⟩], 11⟩

/-- A root tree in which the blob `c.txt` follows the tree `sub`. -/
def exRootAfter : Tree := ⟨[⟨"sub".toList, 0, 2⟩, ⟨"c.txt".toList, 0, 1⟩], 12⟩

/-- A store that fails on every hash but `1`. -/
def exFailingRepo : Repository :=
  ⟨fun h =>
    match h with
    | 1 => .object (.blob 1)
    | _ => .otherFault 7⟩

/-- A tree whose only entry points to the tree itself. -/
def exLoopTree : Tree := ⟨[⟨"d".toList, 0, 7⟩], 7⟩

/-- A store in which every hash resolves to the self-referencing tree. -/
def exLoopRepo : Repository := ⟨fun _ => .object (.tree exLoopTree)⟩

/-- The walker on the self-referencing tree after `k` entries have been yielded: `k`
frames that have handed out their entry, the frame entered last, and the path of `k`
names `d` as `base`. -/
def exLoopWalker (k : Nat) : TreeWalker :=
  { stack := List.replicate k ⟨exLoopTree, 1⟩ ++ [⟨exLoopTree, 0⟩],
    base := path.joinSlash (List.replicate k "d".toList),
    r := exLoopRepo, t := exLoopTree }

/-- A callback that stops when it is handed the path `sub`, whatever it was called with
before. -/
def exStopAtSub : Callback :=
  fun _ p _ => if p = "sub".toList then some .ErrStop else none

/-- The names of the entries through which the subtree frames on the stack were
entered, from the bottom of the stack to the top: for every frame but the top one, the
name of the entry it handed out last. -/
def enteredNames (stack : List treeEntryIter) : List GoString :=
  stack.dropLast.map (fun f => (f.t.Entries.getD (f.pos - 1) TreeEntry.zero).Name)

/-- The invariant of the walker states reached over trees whose entry names are single
segments: `base` stands for the entered names, every frame but the top one has handed
out an entry, and all names in the open trees are single segments. -/
def BaseInvariant (w : TreeWalker) : Prop :=
  Represents w.base (enteredNames w.stack) ∧
  (∀ f ∈ w.stack.dropLast, 1 ≤ f.pos ∧ f.pos ≤ f.t.Entries.length) ∧
  (∀ f ∈ w.stack, ∀ e ∈ f.t.Entries, isSegment e.Name)

/-! ## options.go -/

namespace common

/-- Modelled from the spec: the credentials of a clone are an interface value of another
package, nil or some method; only its identity matters here. -/
abbrev AuthMethod := Option Nat

end common

namespace core

/-- Modelled from the spec: a reference name is a string. -/
abbrev ReferenceName := GoString

/-- Modelled from the spec: the primary symbolic reference, `HEAD`. -/
def HEAD : ReferenceName := "HEAD".toList

end core

namespace config

/-- Modelled from the spec: a refspec is a string pattern; its shape check `IsValid`
belongs to another package and is a parameter of `RemoteFetchOptions.Validate`. -/
abbrev RefSpec := GoString

end config

/-- Go: `DefaultRemoteName = "origin"`. -/
def DefaultRemoteName : GoString := "origin".toList

/-- Go: `type RepositoryCloneOptions struct`. -/
structure RepositoryCloneOptions where
  URL : GoString
  Auth : common.AuthMethod
  RemoteName : GoString
  ReferenceName : core.ReferenceName
  SingleBranch : Bool
  Depth : Int
  deriving DecidableEq, Repr

/-- Go: `func (o *RepositoryCloneOptions) Validate() error`; returns the error and the
options as the call leaves them. -/
def RepositoryCloneOptions.Validate (o : RepositoryCloneOptions) :
    Option GoError × RepositoryCloneOptions :=
  if o.URL = [] then (some .ErrMissingURL, o)
  else
    let o1 := if o.RemoteName = [] then { o with RemoteName := DefaultRemoteName } else o
    let o2 := if o1.ReferenceName = [] then { o1 with ReferenceName := core.HEAD } else o1
    (none, o2)

/-- Go: `type RepositoryPullOptions struct`. -/
structure RepositoryPullOptions where
  RemoteName : GoString
  ReferenceName : core.ReferenceName
  SingleBranch : Bool
  Depth : Int
  deriving DecidableEq, Repr

/-- Go: `func (o *RepositoryPullOptions) Validate() error`; returns the error and the
options as the call leaves them. -/
def RepositoryPullOptions.Validate (o : RepositoryPullOptions) :
    Option GoError × RepositoryPullOptions :=
  let o1 := if o.RemoteName = [] then { o with RemoteName := DefaultRemoteName } else o
  let o2 := if o1.ReferenceName = [] then { o1 with ReferenceName := core.HEAD } else o1
  (none, o2)

/-- Go: `type RemoteFetchOptions struct`. -/
structure RemoteFetchOptions where
  RefSpecs : List config.RefSpec
  Depth : Int
  deriving DecidableEq, Repr

/-- The loop `for _, r := range o.RefSpecs` of `RemoteFetchOptions.Validate`: the error
it returns, nil when it runs to the end. -/
def refSpecsLoop (IsValid : config.RefSpec → Bool) : List config.RefSpec → Option GoError
  | [] => none
  | r :: rs => if !IsValid r then some .ErrInvalidRefSpec else refSpecsLoop IsValid rs

/-- Go: `func (o *RemoteFetchOptions) Validate() error`, with the method `IsValid` of
`config.RefSpec` as a parameter; returns the error and the options as the call leaves
them. -/
def RemoteFetchOptions.Validate (IsValid : config.RefSpec → Bool) (o : RemoteFetchOptions) :
    Option GoError × RemoteFetchOptions :=
  (refSpecsLoop IsValid o.RefSpecs, o)

/-! ## One iteration of the loop of `Next` -/

theorem nextLoop_nil (m fuel : Nat) (w : TreeWalker) (v : NextResult) (h : w.stack = []) :
    nextLoop m (fuel + 1) w v = some ({ v with err := some .EOF }, w) := by
  simp [nextLoop, h]

theorem nextLoop_deep (m fuel : Nat) (w : TreeWalker) (v : NextResult)
    (h : m + 1 < w.stack.length) :
    nextLoop m (fuel + 1) w v = some ({ v with err := some .ErrMaxTreeDepth }, w) := by
  have h1 : ¬ ((w.stack.length : Int) - 1 < 0) := by omega
  have h2 : (w.stack.length : Int) - 1 > (m : Int) := by omega
  simp only [nextLoop, h1, h2, if_true, if_false]

theorem nextLoop_pop (m fuel : Nat) (w : TreeWalker) (v : NextResult)
    (below : List treeEntryIter) (top : treeEntryIter)
    (hs : w.stack = below ++ [top]) (hm : below.length ≤ m)
    (hp : top.t.Entries.length ≤ top.pos) :
    nextLoop m (fuel + 1) w v =
      nextLoop m fuel { w with stack := below, base := ascend w.base }
        { v with entry := TreeEntry.zero, err := some .EOF } := by
  have h1 : ¬ ((w.stack.length : Int) - 1 < 0) := by rw [hs]; simp
  have h2 : ¬ ((w.stack.length : Int) - 1 > (m : Int)) := by rw [hs]; simp; omega
  have h3 : ((w.stack.length : Int) - 1).toNat = below.length := by rw [hs]; simp
  have h4 : w.stack[below.length]? = some top := by rw [hs]; simp
  simp only [nextLoop, h1, h2, if_false, h3, h4, treeEntryIter.Next, ge_iff_le, hp, if_true]
  simp [hs, ascend]

theorem nextLoop_entry (m fuel : Nat) (w : TreeWalker) (v : NextResult)
    (below : List treeEntryIter) (top : treeEntryIter) (e : TreeEntry)
    (hs : w.stack = below ++ [top]) (hm : below.length ≤ m)
    (he : top.t.Entries[top.pos]? = some e) :
    nextLoop m (fuel + 1) w v =
      match w.r.resolve e.Hash with
      | .notFound =>
        nextLoop m fuel (advanceTop w below top) { v with entry := e, obj := none, err := none }
      | .otherFault c =>
        some (⟨path.Join [w.base, e.Name], e, none, some (.other c)⟩, advanceTop w below top)
      | .object (.tree t) =>
        some (⟨path.Join [w.base, e.Name], e, some (.tree t), none⟩,
          { w with stack := below ++ [{ top with pos := top.pos + 1 }] ++ [⟨t, 0⟩],
                   base := path.Join [w.base, e.Name] })
      | .object o =>
        some (⟨path.Join [w.base, e.Name], e, some o, none⟩, advanceTop w below top) := by
  have hlt : top.pos < top.t.Entries.length := by
    rcases List.getElem?_eq_some_iff.1 he with ⟨h, _⟩; exact h
  have hge : ¬ (top.t.Entries.length ≤ top.pos) := by omega
  have hd : top.t.Entries.getD top.pos TreeEntry.zero = e := by
    simp [List.getD, he]
  have h1 : ¬ ((w.stack.length : Int) - 1 < 0) := by rw [hs]; simp
  have h2 : ¬ ((w.stack.length : Int) - 1 > (m : Int)) := by rw [hs]; simp; omega
  have h3 : ((w.stack.length : Int) - 1).toNat = below.length := by rw [hs]; simp
  have h4 : w.stack[below.length]? = some top := by rw [hs]; simp
  have h5 : w.stack.set below.length { top with pos := top.pos + 1 }
      = below ++ [{ top with pos := top.pos + 1 }] := by rw [hs]; simp
  simp only [nextLoop, h1, h2, if_false, h3, h4, treeEntryIter.Next, ge_iff_le, hge, hd, h5,
    Repository.Object, advanceTop]
  cases hr : w.r.resolve e.Hash with
  | notFound => simp
  | otherFault c => simp
  | object o => cases o <;> simp

/-! ## The loop bound -/

theorem loopBound_snoc (w : TreeWalker) (below : List treeEntryIter) (top : treeEntryIter)
    (hs : w.stack = below ++ [top]) :
    loopBound w = below.length + (below.map (fun f => f.t.Entries.length - f.pos)).sum
      + (top.t.Entries.length - top.pos) + 2 := by
  simp [loopBound, hs]; omega

theorem loopBound_pos (w : TreeWalker) : 0 < loopBound w := by
  simp [loopBound]

/-! ## Algebra of flows -/

theorem Flow.cons_andThen (ev : NextResult) (a : Flow) (k : GoString → Flow) :
    (a.cons ev).andThen k = (a.andThen k).cons ev := by
  unfold Flow.andThen Flow.cons
  by_cases h : a.deep <;> simp [h]

theorem Flow.andThen_assoc (a : Flow) (k1 k2 : GoString → Flow) :
    (a.andThen k1).andThen k2 = a.andThen (fun b => (k1 b).andThen k2) := by
  unfold Flow.andThen
  by_cases h : a.deep
  · simp [h]
  · by_cases h1 : (k1 a.base).deep <;> simp [h, h1]

theorem Flow.pure_andThen (b : GoString) (k : GoString → Flow) :
    (Flow.mk [] b false).andThen k = k b := by
  simp [Flow.andThen]

theorem Flow.deep_andThen (a : Flow) (k : GoString → Flow) (h : a.deep = true) :
    a.andThen k = a := by
  simp [Flow.andThen, h]

theorem procFrames_snoc (r : Repository) (m : Nat) (base : GoString)
    (below : List treeEntryIter) (top : treeEntryIter) :
    procFrames r m base (below ++ [top]).reverse =
      (procEntries r (procTree r (m - below.length)) base
          (top.t.Entries.drop top.pos)).andThen
        (fun b => procFrames r m (ascend b) below.reverse) := by
  simp [procFrames]

theorem nextLoop_spec (m : Nat) : ∀ (fuel : Nat) (w : TreeWalker) (v : NextResult),
    loopBound w ≤ fuel → w.stack.length ≤ m + 1 → v.name = [] → v.obj = none →
    (w.stack = [] → v.entry = TreeEntry.zero) →
    ∃ w1, nextLoop m fuel w v =
        some ((procFrames w.r m w.base w.stack.reverse).events.headD eofResult, w1)
      ∧ procStack m w1 = ⟨(procFrames w.r m w.base w.stack.reverse).events.tail,
          (procFrames w.r m w.base w.stack.reverse).base,
          (procFrames w.r m w.base w.stack.reverse).deep⟩
      ∧ w1.r = w.r ∧ w1.t = w.t
      ∧ ((procFrames w.r m w.base w.stack.reverse).events = [] → w1.stack = []) := by
  intro fuel
  induction fuel with
  | zero =>
    intro w v hb
    have := loopBound_pos w
    omega
  | succ fuel ih =>
    intro w v hb hlen hn ho hz
    rcases List.eq_nil_or_concat w.stack with hs | ⟨below, top, hs⟩
    on_goal 2 => rw [List.concat_eq_append] at hs
    · refine ⟨w, ?_, ?_, rfl, rfl, fun _ => hs⟩
      · rw [nextLoop_nil m fuel w v hs, hs]
        have := hz hs
        cases v
        simp_all [procFrames, eofResult]
      · simp [procStack, hs, procFrames]
    · have hm : below.length ≤ m := by rw [hs] at hlen; simpa using hlen
      rw [hs, procFrames_snoc]
      by_cases hp : top.t.Entries.length ≤ top.pos
      · rw [nextLoop_pop m fuel w v below top hs hm hp]
        have hd : top.t.Entries.drop top.pos = [] := List.drop_eq_nil_iff.2 hp
        rw [hd]
        simp only [procEntries, Flow.pure_andThen]
        have hb2 : loopBound { w with stack := below, base := ascend w.base } ≤ fuel := by
          rw [loopBound_snoc w below top hs] at hb
          simp only [loopBound]; omega
        exact ih { w with stack := below, base := ascend w.base }
          { v with entry := TreeEntry.zero, err := some .EOF } hb2 (by simp; omega) hn ho
          (fun _ => rfl)
      · have hlt : top.pos < top.t.Entries.length := by omega
        have he : top.t.Entries[top.pos]? = some top.t.Entries[top.pos] :=
          List.getElem?_eq_getElem hlt
        have hd : top.t.Entries.drop top.pos
            = top.t.Entries[top.pos] :: top.t.Entries.drop (top.pos + 1) :=
          List.drop_eq_getElem_cons hlt
        rw [nextLoop_entry m fuel w v below top _ hs hm he, hd]
        generalize top.t.Entries[top.pos] = e
        have hadv : procStack m (advanceTop w below top) =
            (procEntries w.r (procTree w.r (m - below.length)) w.base
              (top.t.Entries.drop (top.pos + 1))).andThen
              (fun b => procFrames w.r m (ascend b) below.reverse) := by
          have : ¬ (m + 1 < (below ++ [{ top with pos := top.pos + 1 }]).length) := by
            simp; omega
          simp only [procStack, advanceTop, this, if_false]
          rw [procFrames_snoc]
        cases hr : w.r.resolve e.Hash with
        | notFound =>
          simp only [procEntries, hr]
          have hb2 : loopBound (advanceTop w below top) ≤ fuel := by
            rw [loopBound_snoc w below top hs] at hb
            rw [loopBound_snoc (advanceTop w below top) below _ rfl]
            simp only []; omega
          have := ih (advanceTop w below top) { v with entry := e, obj := none, err := none }
            hb2 (by simp [advanceTop]; omega) hn rfl (by simp [advanceTop])
          simp only [advanceTop] at this
          rw [procFrames_snoc] at this
          exact this
        | otherFault c =>
          refine ⟨advanceTop w below top, ?_, ?_, rfl, rfl, ?_⟩
          · simp only [procEntries, hr, Flow.cons_andThen]
            simp [Flow.cons]
          on_goal 2 => simp only [procEntries, hr, Flow.cons_andThen]; simp [Flow.cons]
          · rw [hadv]
            simp only [procEntries, hr, Flow.cons_andThen]
            simp [Flow.cons]
        | object o =>
          cases o with
          | tree t =>
            refine ⟨{ w with
                stack := below ++ [{ top with pos := top.pos + 1 }] ++ [⟨t, 0⟩],
                base := path.Join [w.base, e.Name] }, ?_, ?_, rfl, rfl, ?_⟩
            · simp only [procEntries, hr, Flow.cons_andThen]
              simp [Flow.cons]
            on_goal 2 => simp only [procEntries, hr, Flow.cons_andThen]; simp [Flow.cons]
            · simp only [procEntries, hr, Flow.cons_andThen, Flow.andThen_assoc]
              by_cases hk : below.length = m
              · have : m + 1 < (below ++ [{ top with pos := top.pos + 1 }] ++ [(⟨t, 0⟩ : treeEntryIter)]).length := by
                  simp; omega
                simp only [procStack, this, if_true]
                simp [hk, procTree, Flow.cons, Flow.andThen]
              · have : ¬ (m + 1 < (below ++ [{ top with pos := top.pos + 1 }] ++ [(⟨t, 0⟩ : treeEntryIter)]).length) := by
                  simp; omega
                simp only [procStack, this, if_false]
                simp only [procFrames_snoc]
                obtain ⟨d, hd2⟩ : ∃ d, m - below.length = d + 1 := ⟨m - below.length - 1, by omega⟩
                have hd3 : m - (below ++ [{ top with pos := top.pos + 1 }]).length = d := by
                  simp; omega
                rw [hd3, hd2]
                simp [procTree, Flow.cons]
          | blob h =>
            refine ⟨advanceTop w below top, ?_, ?_, rfl, rfl, ?_⟩
            · simp only [procEntries, hr, Flow.cons_andThen]
              simp [Flow.cons]
            on_goal 2 => simp only [procEntries, hr, Flow.cons_andThen]; simp [Flow.cons]
            · rw [hadv]
              simp only [procEntries, hr, Flow.cons_andThen]
              simp [Flow.cons]
          | commit h =>
            refine ⟨advanceTop w below top, ?_, ?_, rfl, rfl, ?_⟩
            · simp only [procEntries, hr, Flow.cons_andThen]
              simp [Flow.cons]
            on_goal 2 => simp only [procEntries, hr, Flow.cons_andThen]; simp [Flow.cons]
            · rw [hadv]
              simp only [procEntries, hr, Flow.cons_andThen]
              simp [Flow.cons]
          | tag h =>
            refine ⟨advanceTop w below top, ?_, ?_, rfl, rfl, ?_⟩
            · simp only [procEntries, hr, Flow.cons_andThen]
              simp [Flow.cons]
            on_goal 2 => simp only [procEntries, hr, Flow.cons_andThen]; simp [Flow.cons]
            · rw [hadv]
              simp only [procEntries, hr, Flow.cons_andThen]
              simp [Flow.cons]

/-! ## `Next` and repeated calls in terms of the big-step description -/

theorem procEntries_deep_events (r : Repository) (sub : GoString → Tree → Flow) :
    ∀ (es : List TreeEntry) (base : GoString),
      (procEntries r sub base es).deep = true → (procEntries r sub base es).events ≠ [] := by
  intro es
  induction es with
  | nil => intro base h; simp [procEntries] at h
  | cons e es ih =>
    intro base h
    cases hr : r.resolve e.Hash with
    | notFound =>
      simp only [procEntries, hr] at h ⊢
      exact ih base h
    | otherFault c => simp [procEntries, hr, Flow.cons]
    | object o => cases o <;> simp [procEntries, hr, Flow.cons]

theorem andThen_deep_events (a : Flow) (k : GoString → Flow)
    (ha : a.deep = true → a.events ≠ [])
    (hk : (k a.base).deep = true → (k a.base).events ≠ [])
    (h : (a.andThen k).deep = true) : (a.andThen k).events ≠ [] := by
  unfold Flow.andThen at h ⊢
  by_cases hd : a.deep
  · simp only [hd, if_true] at h ⊢
    exact ha hd
  · simp only [hd] at h ⊢
    simp only [Bool.false_eq_true, if_false] at h ⊢
    intro hnil
    exact hk h (List.append_eq_nil.1 hnil).2

theorem procFrames_deep_events (r : Repository) (m : Nat) :
    ∀ (fs : List treeEntryIter) (base : GoString),
      (procFrames r m base fs).deep = true → (procFrames r m base fs).events ≠ [] := by
  intro fs
  induction fs with
  | nil => intro base h; simp [procFrames] at h
  | cons f fs ih =>
    intro base h
    simp only [procFrames] at h ⊢
    exact andThen_deep_events _ _ (procEntries_deep_events r _ _ _) (ih _) h

theorem NextResult.zero_depth :
    ({ NextResult.zero with err := some GoError.ErrMaxTreeDepth } : NextResult) = depthResult :=
  rfl

/-- One call of `Next` returns the first event of the flow of the walker (or its
terminal result when there is none) and leaves a walker whose flow is the rest. -/
theorem Next_spec (m : Nat) (w : TreeWalker) :
    ∃ w1, Next m w = some ((procStack m w).events.headD (procStack m w).terminal, w1)
      ∧ procStack m w1 = ⟨(procStack m w).events.tail, (procStack m w).base,
          (procStack m w).deep⟩
      ∧ w1.r = w.r ∧ w1.t = w.t
      ∧ ((procStack m w).events = [] → (procStack m w).deep = false → w1.stack = []) := by
  by_cases hdeep : m + 1 < w.stack.length
  · refine ⟨w, ?_, ?_, rfl, rfl, ?_⟩
    on_goal 3 => simp [procStack, hdeep]
    · obtain ⟨k, hk⟩ : ∃ k, loopBound w = k + 1 := ⟨loopBound w - 1, by
        have := loopBound_pos w; omega⟩
      simp only [Next, hk, nextLoop_deep m k w _ hdeep, procStack, hdeep, if_true,
        List.headD_nil, Flow.terminal, NextResult.zero_depth]
    · simp [procStack, hdeep]
  · obtain ⟨w1, h1, h2, h3, h4, h5⟩ := nextLoop_spec m (loopBound w) w NextResult.zero
      (le_refl _) (by omega) rfl rfl (fun _ => rfl)
    refine ⟨w1, ?_, ?_, h3, h4, ?_⟩
    on_goal 3 => simpa only [procStack, hdeep, if_false] using fun h _ => h5 h
    · simp only [Next, h1, procStack, hdeep, if_false]
      cases hev : (procFrames w.r m w.base w.stack.reverse).events with
      | nil =>
        have hnd : (procFrames w.r m w.base w.stack.reverse).deep = false := by
          by_contra hc
          exact procFrames_deep_events w.r m _ _ (by simpa using hc) hev
        simp [Flow.terminal, hnd]
      | cons ev rest => simp
    · simpa only [procStack, hdeep, if_false] using h2

/-- `Next` always returns. -/
theorem Next_total (m : Nat) (w : TreeWalker) : ∃ res w1, Next m w = some (res, w1) := by
  obtain ⟨w1, h, _⟩ := Next_spec m w
  exact ⟨_, w1, h⟩

/-- The first `n` terms of the infinite sequence of results the flow describes. -/
theorem take_stream (evs : List NextResult) (term : NextResult) (n : Nat) :
    (evs ++ List.replicate (n + 1) term).take (n + 1)
      = evs.headD term :: (evs.tail ++ List.replicate n term).take n := by
  cases evs with
  | nil => simp [List.replicate_succ]
  | cons ev rest =>
    simp only [List.cons_append, List.take_succ_cons, List.headD_cons, List.tail_cons]
    congr 1
    rw [List.replicate_succ', ← List.append_assoc]
    rw [List.take_append_of_le_length (by simp)]

theorem calls_spec (m : Nat) : ∀ (n : Nat) (w : TreeWalker),
    ∃ w1, calls m n w = some (((procStack m w).events
        ++ List.replicate n (procStack m w).terminal).take n, w1) ∧ w1.r = w.r
      ∧ procStack m w1 = ⟨(procStack m w).events.drop n, (procStack m w).base,
          (procStack m w).deep⟩ := by
  intro n
  induction n with
  | zero => intro w; exact ⟨w, by simp [calls], rfl, by simp⟩
  | succ n ih =>
    intro w
    obtain ⟨w1, h1, h2, h3, _, _⟩ := Next_spec m w
    obtain ⟨w2, h4, h5, h6⟩ := ih w1
    refine ⟨w2, ?_, h5.trans h3, ?_⟩
    · simp only [calls, h1, h4, Option.map_some', take_stream]
      simp [h2, Flow.terminal]
    · rw [h6, h2]
      simp

theorem cutAtError_length_le (evs : List NextResult) (term : GoError) :
    (cutAtError evs term).1.length ≤ evs.length := by
  induction evs with
  | nil => simp [cutAtError]
  | cons ev rest ih =>
    simp only [cutAtError]
    cases ev.err
    · simp; omega
    · simp

theorem walk_spec (m : Nat) : ∀ (n : Nat) (w : TreeWalker),
    (cutAtError (procStack m w).events (procStack m w).lastError).1.length < n →
    walk m n w = some (cutAtError (procStack m w).events (procStack m w).lastError) := by
  intro n
  induction n with
  | zero => intro w h; omega
  | succ n ih =>
    intro w h
    obtain ⟨w1, h1, h2, _, _, _⟩ := Next_spec m w
    simp only [walk, h1]
    cases hev : (procStack m w).events with
    | nil =>
      simp only [List.headD_nil, Flow.terminal, Flow.lastError, cutAtError]
      by_cases hd : (procStack m w).deep <;> simp [hd, depthResult, eofResult]
    | cons ev rest =>
      rw [hev] at h h2
      simp only [List.headD_cons, cutAtError] at h ⊢
      cases he : ev.err with
      | some e => simp
      | none =>
        simp only [he, List.length_cons] at h ⊢
        have hl : (procStack m w1).lastError = (procStack m w).lastError := by
          simp [Flow.lastError, h2]
        have hevs : (procStack m w1).events = rest := by simp [h2]
        have hw := ih w1 (by rw [hl, hevs]; omega)
        rw [hw, hl, hevs]
        simp

/-! ## Well-formed trees: the walk is the reference pre-order listing -/

theorem Flow.Lists.cons_item {a : Flow} {l : List (List GoString × TreeEntry × Object)}
    (h : a.Lists l) (name : GoString) (ρ : List GoString) (e : TreeEntry) (o : Object) :
    (a.cons ⟨name, e, some o, none⟩).Lists ((ρ, e, o) :: l) := by
  obtain ⟨h1, h2, h3⟩ := h
  refine ⟨h1, ?_, ?_⟩
  · intro ev hev
    simp only [Flow.cons, List.mem_cons] at hev
    rcases hev with rfl | hev
    · rfl
    · exact h2 ev hev
  · simp [Flow.cons, NextResult.item, h3]

theorem Flow.Lists.done (b : GoString) : (Flow.mk [] b false).Lists [] := by
  simp [Flow.Lists]

theorem Flow.Lists.lists_seq {a : Flow} {k : GoString → Flow}
    {l1 l2 : List (List GoString × TreeEntry × Object)} (h : a.Lists l1) (hk : (k a.base).Lists l2) :
    (a.andThen k).Lists (l1 ++ l2) := by
  obtain ⟨h1, h2, h3⟩ := h
  obtain ⟨k1, k2, k3⟩ := hk
  unfold Flow.andThen
  simp only [h1, Bool.false_eq_true, if_false]
  refine ⟨k1, ?_, ?_⟩
  · intro ev hev
    rcases List.mem_append.1 hev with hev | hev
    · exact h2 ev hev
    · exact k2 ev hev
  · simp [h3, k3]

theorem procEntries_lists (r : Repository) (hstore : ∀ h c, r.resolve h ≠ .otherFault c)
    (sub : GoString → Tree → Flow)
    (lsub : List GoString → Tree → List (List GoString × TreeEntry × Object))
    (P : Tree → Prop) (hsub : ∀ b ρ s, P s → (sub b s).Lists (lsub ρ s)) (ρ : List GoString) :
    ∀ (es : List TreeEntry) (base : GoString),
      (∀ e ∈ es, ∀ s, r.resolve e.Hash = .object (.tree s) → P s) →
      (procEntries r sub base es).Lists (listEntries r lsub ρ es) := by
  intro es
  induction es with
  | nil => intro base _; simp [procEntries, listEntries, Flow.Lists]
  | cons e es ih =>
    intro base hP
    have hP2 : ∀ e1 ∈ es, ∀ s, r.resolve e1.Hash = .object (.tree s) → P s :=
      fun e1 he1 => hP e1 (List.mem_cons_of_mem _ he1)
    cases hr : r.resolve e.Hash with
    | notFound =>
      simp only [procEntries, listEntries, hr]
      exact ih base hP2
    | otherFault c => exact absurd hr (hstore _ _)
    | object o =>
      cases o with
      | tree s =>
        simp only [procEntries, listEntries, hr]
        exact ((hsub _ _ s (hP e (List.mem_cons_self _ _) s hr)).lists_seq (ih _ hP2)).cons_item _ _ e _
      | blob h =>
        simp only [procEntries, listEntries, hr]
        exact (ih base hP2).cons_item _ _ e _
      | commit h =>
        simp only [procEntries, listEntries, hr]
        exact (ih base hP2).cons_item _ _ e _
      | tag h =>
        simp only [procEntries, listEntries, hr]
        exact (ih base hP2).cons_item _ _ e _

theorem procTree_lists (r : Repository) (hstore : ∀ h c, r.resolve h ≠ .otherFault c) :
    ∀ (d : Nat) (base : GoString) (ρ : List GoString) (t : Tree), withinDepth r d t = true →
      (procTree r d base t).Lists (preorder r d ρ t) := by
  intro d
  induction d with
  | zero => intro base ρ t h; simp [withinDepth] at h
  | succ d ih =>
    intro base ρ t h
    simp only [procTree, preorder]
    refine procEntries_lists r hstore _ _ (fun s => withinDepth r d s = true)
      (fun b ρ s hs => ih b ρ s hs) _ _ _ ?_
    intro e he s hr
    simp only [withinDepth, List.all_eq_true] at h
    have := h e he
    simpa [hr] using this

theorem procStack_new (m : Nat) (r : Repository) (t : Tree) :
    procStack m (NewTreeWalker r t) =
      (procTree r (m + 1) [] t).andThen (fun b => ⟨[], ascend b, false⟩) := by
  simp [procStack, NewTreeWalker, procFrames, procTree]

theorem cutAtError_of_noerr (evs : List NextResult) (term : GoError)
    (h : ∀ ev ∈ evs, ev.err = none) : cutAtError evs term = (evs, term) := by
  induction evs with
  | nil => rfl
  | cons ev rest ih =>
    have h1 := h ev (List.mem_cons_self _ _)
    have h2 := ih (fun x hx => h x (List.mem_cons_of_mem _ hx))
    simp [cutAtError, h1, h2]

/-- On a well-formed tree, repeated calls yield the reference listing and then end. -/
theorem walk_preorder (m : Nat) (r : Repository) (t : Tree)
    (hstore : ∀ h c, r.resolve h ≠ .otherFault c)
    (hdepth : withinDepth r (m + 1) t = true) (n : Nat)
    (hn : (preorder r (m + 1) [] t).length < n) :
    (walk m n (NewTreeWalker r t)).map (fun p => (p.1.map NextResult.item, p.2))
      = some ((preorder r (m + 1) [] t).map (fun y => (y.2.1, some y.2.2)), GoError.EOF) := by
  have hl := (procTree_lists r hstore (m + 1) [] [] t hdepth).lists_seq
    (k := fun b => ⟨[], ascend b, false⟩) (Flow.Lists.done _)
  rw [← procStack_new, List.append_nil] at hl
  obtain ⟨h1, h2, h3⟩ := hl
  have hlen : (procStack m (NewTreeWalker r t)).events.length = (preorder r (m + 1) [] t).length := by
    have := congrArg List.length h3
    simpa using this
  have hcut := cutAtError_of_noerr _ (procStack m (NewTreeWalker r t)).lastError h2
  rw [walk_spec m n _ (by rw [hcut]; simpa [hlen] using hn), hcut]
  simp [h3, Flow.lastError, h1]

namespace path

/-! ## `Clean`, `Split` and `Join` on slash-joined segments -/

theorem cleanLoop_nil (rooted : Bool) (fuel : Nat) (out : List Char) (dd : Nat) :
    cleanLoop rooted fuel [] out dd = out := by
  cases fuel <;> simp [cleanLoop]

theorem cleanLoop_slash (rooted : Bool) (fuel : Nat) (rest out : List Char) (dd : Nat) :
    cleanLoop rooted (fuel + 1) ('/' :: rest) out dd = cleanLoop rooted fuel rest out dd := by
  simp [cleanLoop]

theorem cleanLoop_dot_slash (rooted : Bool) (fuel : Nat) (rest out : List Char) (dd : Nat) :
    cleanLoop rooted (fuel + 1) ('.' :: '/' :: rest) out dd
      = cleanLoop rooted fuel ('/' :: rest) out dd := by
  simp [cleanLoop]

theorem takeWhile_segment (s rest : List Char) (hs : '/' ∉ s)
    (hr : rest = [] ∨ rest.head? = some '/') :
    (s ++ rest).takeWhile (fun c => c != '/') = s
      ∧ (s ++ rest).dropWhile (fun c => c != '/') = rest := by
  induction s with
  | nil =>
    rcases hr with rfl | hr
    · simp
    · cases rest with
      | nil => simp
      | cons c rest =>
        simp only [List.head?_cons, Option.some.injEq] at hr
        subst hr
        simp
  | cons c s ih =>
    have hc : c ≠ '/' := fun h => hs (by simp [h])
    have hs2 : '/' ∉ s := fun h => hs (List.mem_cons_of_mem _ h)
    obtain ⟨h1, h2⟩ := ih hs2
    simp [hc, h1, h2]

/-- One real path element is copied as a whole. -/
theorem cleanLoop_segment (fuel : Nat) (s rest out : List Char) (dd : Nat)
    (hs : isSegment s) (hr : rest = [] ∨ rest.head? = some '/') :
    cleanLoop false (fuel + 1) (s ++ rest) out dd
      = cleanLoop false fuel rest (addElem out s) dd := by
  obtain ⟨hne, hsl, hdot, hdd⟩ := hs
  obtain ⟨htw, hdw⟩ := takeWhile_segment s rest hsl hr
  have hlen : ¬ ((s ++ rest).length = 0) := by
    cases s with
    | nil => exact absurd rfl hne
    | cons c s => simp
  have h0 : ¬ ((s ++ rest)[0]? = some '/') := by
    cases s with
    | nil => exact absurd rfl hne
    | cons c s =>
      simp only [List.cons_append, List.getElem?_cons_zero, Option.some.injEq]
      intro h; exact hsl (by simp [h])
  have h1 : ¬ ((s ++ rest)[0]? = some '.' ∧
      ((s ++ rest).length = 1 ∨ (s ++ rest)[1]? = some '/')) := by
    rintro ⟨ha, hb⟩
    cases s with
    | nil => exact absurd rfl hne
    | cons c s =>
      simp only [List.cons_append, List.getElem?_cons_zero, Option.some.injEq] at ha
      subst ha
      cases s with
      | nil =>
        exact hdot rfl
      | cons c2 s =>
        rcases hb with hb | hb
        · simp at hb
        · simp only [List.cons_append, List.getElem?_cons_succ, List.getElem?_cons_zero,
            Option.some.injEq] at hb
          exact hsl (by simp [hb])
  have h2 : ¬ ((s ++ rest)[0]? = some '.' ∧ (s ++ rest)[1]? = some '.' ∧
      ((s ++ rest).length = 2 ∨ (s ++ rest)[2]? = some '/')) := by
    rintro ⟨ha, hb, hc⟩
    cases s with
    | nil => exact absurd rfl hne
    | cons c s =>
      simp only [List.cons_append, List.getElem?_cons_zero, Option.some.injEq] at ha
      subst ha
      cases s with
      | nil => exact hdot rfl
      | cons c2 s =>
        simp only [List.cons_append, List.getElem?_cons_succ, List.getElem?_cons_zero,
          Option.some.injEq] at hb
        subst hb
        cases s with
        | nil => exact hdd rfl
        | cons c3 s =>
          rcases hc with hc | hc
          · simp at hc
          · simp only [List.cons_append, List.getElem?_cons_succ, List.getElem?_cons_zero,
              Option.some.injEq] at hc
            exact hsl (by simp [hc])
  rw [cleanLoop]
  simp only [hlen, h0, h1, h2, if_false, htw, hdw]
  congr 1
  by_cases ho : out.length = 0
  · simp [addElem, ho, List.length_eq_zero.1 ho]
  · simp [addElem, ho]


theorem addElem_ne_nil (out x : GoString) (hx : x ≠ []) : (addElem out x).length ≠ 0 := by
  unfold addElem
  split_ifs <;> simp [hx]

theorem addElem_assoc (out x y : GoString) (hx : x ≠ []) :
    addElem (addElem out x) y = addElem out (x ++ '/' :: y) := by
  have h := addElem_ne_nil out x hx
  rw [addElem, if_pos h]
  unfold addElem
  split_ifs <;> simp

theorem joinSlash_cons_cons (s s2 : GoString) (segs : List GoString) :
    joinSlash (s :: s2 :: segs) = s ++ '/' :: joinSlash (s2 :: segs) := rfl

theorem joinSlash_length_pos : ∀ (segs : List GoString), segs ≠ [] →
    (∀ s ∈ segs, isSegment s) → joinSlash segs ≠ []
  | [], h, _ => absurd rfl h
  | [s], _, hs => by simpa [joinSlash] using (hs s (by simp)).1
  | s :: s2 :: segs, _, hs => by simp [joinSlash]

/-- Cleaning slash-joined segments, possibly followed by one trailing slash, writes the
segments back unchanged. -/
theorem cleanLoop_segments : ∀ (segs : List GoString), segs ≠ [] →
    (∀ s ∈ segs, isSegment s) →
    ∀ (tail : List Char), (tail = [] ∨ tail = ['/']) →
    ∀ (fuel : Nat) (out : List Char) (dd : Nat),
      (joinSlash segs ++ tail).length ≤ fuel →
      cleanLoop false fuel (joinSlash segs ++ tail) out dd = addElem out (joinSlash segs)
  | [], h, _ => absurd rfl h
  | [s], _, hs => by
    intro tail ht fuel out dd hf
    have hseg := hs s (by simp)
    have hpos : 0 < s.length := List.length_pos.2 hseg.1
    simp only [joinSlash] at hf ⊢
    obtain ⟨f1, rfl⟩ : ∃ f1, fuel = f1 + 1 := ⟨fuel - 1, by
      simp only [List.length_append] at hf; omega⟩
    rcases ht with rfl | rfl
    · rw [cleanLoop_segment f1 s [] out dd hseg (Or.inl rfl), cleanLoop_nil]
    · rw [cleanLoop_segment f1 s ['/'] out dd hseg (Or.inr rfl)]
      obtain ⟨f2, rfl⟩ : ∃ f2, f1 = f2 + 1 := ⟨f1 - 1, by
        simp only [List.length_append, List.length_singleton] at hf; omega⟩
      rw [cleanLoop_slash, cleanLoop_nil]
  | s :: s2 :: segs, _, hs => by
    intro tail ht fuel out dd hf
    have hseg := hs s (by simp)
    have hpos : 0 < s.length := List.length_pos.2 hseg.1
    have ih := cleanLoop_segments (s2 :: segs) (by simp)
      (fun x hx => hs x (List.mem_cons_of_mem _ hx)) tail ht
    rw [joinSlash_cons_cons] at hf ⊢
    simp only [List.append_assoc, List.cons_append, List.length_append, List.length_cons] at hf ⊢
    obtain ⟨f2, rfl⟩ : ∃ f2, fuel = f2 + 1 + 1 := ⟨fuel - 2, by omega⟩
    rw [cleanLoop_segment (f2 + 1) s ('/' :: (joinSlash (s2 :: segs) ++ tail)) out dd hseg
      (Or.inr rfl), cleanLoop_slash,
      ih f2 _ dd (by simp only [List.length_append]; omega), addElem_assoc _ _ _ hseg.1]

theorem head_segment (s : GoString) (rest : List Char) (hs : isSegment s) :
    (s ++ rest)[0]? ≠ some '/' := by
  obtain ⟨hne, hsl, _, _⟩ := hs
  cases s with
  | nil => exact absurd rfl hne
  | cons c s =>
    simp only [List.cons_append, List.getElem?_cons_zero, ne_eq, Option.some.injEq]
    intro h; exact hsl (by simp [h])

theorem head_joinSlash : ∀ (segs : List GoString) (rest : List Char), segs ≠ [] →
    (∀ s ∈ segs, isSegment s) → (joinSlash segs ++ rest)[0]? ≠ some '/'
  | [], _, h, _ => absurd rfl h
  | [s], rest, _, hs => by simpa [joinSlash] using head_segment s rest (hs s (by simp))
  | s :: s2 :: segs, rest, _, hs => by
    rw [joinSlash_cons_cons, List.append_assoc]
    exact head_segment s _ (hs s (by simp))

/-- `Clean` leaves slash-joined segments alone and removes one trailing slash. -/
theorem Clean_segments (segs : List GoString) (hne : segs ≠ [])
    (hs : ∀ s ∈ segs, isSegment s) (tail : List Char) (ht : tail = [] ∨ tail = ['/']) :
    Clean (joinSlash segs ++ tail) = joinSlash segs := by
  have hj := joinSlash_length_pos segs hne hs
  have hp : joinSlash segs ++ tail ≠ [] := by simp [hj]
  have hroot : ¬ ((joinSlash segs ++ tail)[0]? = some '/') := head_joinSlash segs tail hne hs
  unfold Clean
  simp only [hp, if_false, hroot, decide_False, Bool.false_eq_true]
  rw [cleanLoop_segments segs hne hs tail ht _ _ _ (le_refl _)]
  simp [addElem, hj]

theorem dropWhile_length_lt (rest : List Char) (h0 : ¬ (rest.length = 0))
    (h1 : ¬ (rest[0]? = some '/')) :
    (rest.dropWhile (fun c => c != '/')).length < rest.length := by
  cases rest with
  | nil => simp at h0
  | cons c tl =>
    simp only [List.getElem?_cons_zero, Option.some.injEq] at h1
    have hc : (c != '/') = true := by simpa using h1
    have := (List.dropWhile_sublist (fun c => c != '/') (l := tl)).length_le
    simp only [List.dropWhile_cons, hc, if_true, List.length_cons]
    omega

/-- The loop of `Clean` reads at least one byte per iteration: a bound of `rest.length`
iterations is never used up, so a larger bound gives the same result. -/
theorem cleanLoop_fuel_succ (rooted : Bool) : ∀ (fuel : Nat) (rest out : List Char) (dd : Nat),
    rest.length ≤ fuel →
    cleanLoop rooted (fuel + 1) rest out dd = cleanLoop rooted fuel rest out dd := by
  intro fuel
  induction fuel with
  | zero =>
    intro rest out dd h
    have : rest = [] := List.length_eq_zero.1 (by omega)
    subst this
    simp [cleanLoop]
  | succ fuel ih =>
    intro rest out dd h
    conv_lhs => rw [cleanLoop]
    conv_rhs => rw [cleanLoop]
    by_cases h0 : rest.length = 0
    · simp only [h0, if_true]
    · simp only [h0, if_false]
      have hd1 : (rest.drop 1).length ≤ fuel := by simp only [List.length_drop]; omega
      have hd2 : (rest.drop 2).length ≤ fuel := by simp only [List.length_drop]; omega
      by_cases h1 : rest[0]? = some '/'
      · simp only [h1, if_true]
        exact ih _ _ _ hd1
      · have hdw := dropWhile_length_lt rest h0 h1
        simp only [h1, if_false]
        split_ifs <;> first
          | exact ih _ _ _ hd1
          | exact ih _ _ _ hd2
          | exact ih _ _ _ (by omega)

theorem cleanLoop_fuel (rooted : Bool) (rest out : List Char) (dd : Nat) :
    ∀ (k : Nat), cleanLoop rooted (rest.length + k) rest out dd
      = cleanLoop rooted rest.length rest out dd := by
  intro k
  induction k with
  | zero => rfl
  | succ k ih =>
    rw [← Nat.add_assoc, cleanLoop_fuel_succ rooted _ rest out dd (by omega), ih]

theorem joinSlash_snoc : ∀ (ρ : List GoString) (n : GoString), ρ ≠ [] →
    joinSlash (ρ ++ [n]) = joinSlash ρ ++ '/' :: n
  | [], _, h => absurd rfl h
  | [s], n, _ => by simp [joinSlash]
  | s :: s2 :: ρ, n, _ => by
    have ih := joinSlash_snoc (s2 :: ρ) n (by simp)
    simp only [List.cons_append] at ih ⊢
    rw [joinSlash_cons_cons, ih, joinSlash_cons_cons]
    simp

theorem Clean_segment (n : GoString) (hn : isSegment n) : Clean n = n := by
  have := Clean_segments [n] (by simp) (by simpa using hn) [] (Or.inl rfl)
  simpa [joinSlash] using this

theorem Clean_dot_slash (n : GoString) (hn : isSegment n) : Clean ('.' :: '/' :: n) = n := by
  unfold Clean
  have h := cleanLoop_segments [n] (by simp) (by simpa using hn) [] (Or.inl rfl)
    n.length [] 0 (by simp [joinSlash])
  simp only [joinSlash, List.append_nil] at h
  simp only [List.cons_ne_nil, if_false, List.getElem?_cons_zero, Option.some.injEq,
    List.length_cons]
  have hc : ¬ ('.' = '/') := by decide
  simp only [hc, decide_False, Bool.false_eq_true, if_false]
  rw [cleanLoop_dot_slash, cleanLoop_slash, h]
  simp [addElem, hn.1]

theorem lastIndexByte_not_mem (l : List Char) (c : Char) (h : c ∉ l) :
    lastIndexByte l c = -1 := by
  induction l with
  | nil => rfl
  | cons x l ih =>
    have hx : x ≠ c := fun e => h (by simp [e])
    have := ih (fun m => h (List.mem_cons_of_mem _ m))
    simp [lastIndexByte, this, hx]

theorem lastIndexByte_append (a b : List Char) (c : Char) (h : c ∉ b) :
    lastIndexByte (a ++ c :: b) c = a.length := by
  induction a with
  | nil => simp [lastIndexByte, lastIndexByte_not_mem b c h]
  | cons x a ih =>
    simp only [List.cons_append, lastIndexByte, ih, List.length_cons]
    simp
    omega

theorem Split_segment (n : GoString) (hn : '/' ∉ n) : Split n = ([], n) := by
  simp [Split, lastIndexByte_not_mem n '/' hn]

theorem Split_append (a n : GoString) (hn : '/' ∉ n) :
    Split (a ++ '/' :: n) = (a ++ ['/'], n) := by
  have h1 : ((a.length : Int) + 1).toNat = a.length + 1 := by omega
  simp only [Split, lastIndexByte_append a n '/' hn, h1]
  have h2 : a ++ '/' :: n = (a ++ ['/']) ++ n := by simp
  have h3 : (a ++ ['/']).length = a.length + 1 := by simp
  rw [h2, ← h3, List.take_left, List.drop_left]

end path

/-! ## `base` stands for the route -/

theorem Join_represents (base n : GoString) (ρ : List GoString)
    (hb : Represents base ρ) (hρ : ∀ s ∈ ρ, isSegment s) (hn : isSegment n) :
    path.Join [base, n] = path.joinSlash (ρ ++ [n]) := by
  rcases hb with ⟨rfl, rfl | rfl⟩ | ⟨hne, rfl⟩
  · simp [path.Join, hn.1, path.joinSlash, path.Clean_segment n hn]
  · simp [path.Join, path.joinSlash, path.Clean_dot_slash n hn]
  · have hj := path.joinSlash_length_pos ρ hne hρ
    have hall : ∀ s ∈ ρ ++ [n], isSegment s := by
      intro s hs
      rcases List.mem_append.1 hs with h | h
      · exact hρ s h
      · simp only [List.mem_singleton] at h; subst h; exact hn
    have := path.Clean_segments (ρ ++ [n]) (by simp) hall [] (Or.inl rfl)
    rw [List.append_nil, path.joinSlash_snoc ρ n hne] at this
    simp only [path.Join, hj, ne_eq, not_false_eq_true, if_true, path.joinSlash]
    rw [this, path.joinSlash_snoc ρ n hne]

theorem ascend_represents (n : GoString) (ρ : List GoString)
    (hρ : ∀ s ∈ ρ, isSegment s) (hn : isSegment n) :
    Represents (ascend (path.joinSlash (ρ ++ [n]))) ρ := by
  by_cases hne : ρ = []
  · subst hne
    left
    refine ⟨rfl, Or.inr ?_⟩
    simp [ascend, path.joinSlash, path.Split_segment n hn.2.1, path.Clean]
  · right
    refine ⟨hne, ?_⟩
    rw [path.joinSlash_snoc ρ n hne]
    simp only [ascend, path.Split_append _ n hn.2.1]
    exact path.Clean_segments ρ hne hρ ['/'] (Or.inr rfl)

theorem represents_snoc (base n : GoString) (ρ : List GoString) (h : Represents base (ρ ++ [n])) :
    base = path.joinSlash (ρ ++ [n]) := by
  rcases h with ⟨h, _⟩ | ⟨_, h⟩
  · simp at h
  · exact h

/-! ## The paths of the yielded entries -/

theorem yieldsOf_nil : yieldsOf [] = [] := rfl

theorem yieldsOf_cons_yield (name : GoString) (e : TreeEntry) (o : Option Object)
    (l : List NextResult) :
    yieldsOf (⟨name, e, o, none⟩ :: l) = (name, e, o) :: yieldsOf l := by
  simp [yieldsOf]

theorem yieldsOf_cons_error (v : NextResult) (err : GoError) (hv : v.err = some err)
    (l : List NextResult) : yieldsOf (v :: l) = yieldsOf l := by
  simp [yieldsOf, hv]

theorem yieldsOf_append (l1 l2 : List NextResult) :
    yieldsOf (l1 ++ l2) = yieldsOf l1 ++ yieldsOf l2 := by
  simp [yieldsOf]

theorem yieldsOf_replicate_error (v : NextResult) (err : GoError) (hv : v.err = some err)
    (n : Nat) : yieldsOf (List.replicate n v) = [] := by
  induction n with
  | zero => rfl
  | succ n ih => rw [List.replicate_succ, yieldsOf_cons_error v err hv, ih]

theorem yieldsOf_take_prefix (l : List NextResult) (n : Nat) :
    yieldsOf (l.take n) <+: yieldsOf l := by
  unfold yieldsOf
  exact ((List.take_prefix n l).filter _).map _

theorem Flow.Routed.pure (b : GoString) (ρ : List GoString) (h : Represents b ρ) :
    (Flow.mk [] b false).Routed [] ρ := by
  refine ⟨by simp [yieldsOf], fun _ => ⟨by simp [yieldsOf], h⟩⟩

theorem Flow.Routed.stuck (b : GoString) (l : List (List GoString × TreeEntry × Object))
    (ρ : List GoString) : (Flow.mk [] b true).Routed l ρ := by
  refine ⟨by simp [yieldsOf], fun h => by simp at h⟩

theorem Flow.Routed.cons_yield {a : Flow} {l : List (List GoString × TreeEntry × Object)}
    {ρ : List GoString} (h : a.Routed l ρ) (name : GoString) (ρ1 : List GoString)
    (e : TreeEntry) (o : Object) (hname : name = path.joinSlash ρ1) :
    (a.cons ⟨name, e, some o, none⟩).Routed ((ρ1, e, o) :: l) ρ := by
  obtain ⟨h1, h2⟩ := h
  subst hname
  refine ⟨?_, fun hd => ⟨?_, (h2 hd).2⟩⟩
  · simp only [Flow.cons, yieldsOf_cons_yield, List.map_cons, expected]
    exact (List.prefix_cons_inj _).2 h1
  · simp only [Flow.cons, yieldsOf_cons_yield, List.map_cons, expected]
    rw [(h2 hd).1]

theorem Flow.Routed.cons_error {a : Flow} {l : List (List GoString × TreeEntry × Object)}
    {ρ : List GoString} (h : a.Routed l ρ) (v : NextResult) (err : GoError)
    (hv : v.err = some err) : (a.cons v).Routed l ρ := by
  obtain ⟨h1, h2⟩ := h
  refine ⟨?_, fun hd => ⟨?_, (h2 hd).2⟩⟩
  · simpa only [Flow.cons, yieldsOf_cons_error v err hv] using h1
  · simpa only [Flow.cons, yieldsOf_cons_error v err hv] using (h2 hd).1

theorem Flow.Routed.routed_seq {a : Flow} {k : GoString → Flow}
    {l1 l2 : List (List GoString × TreeEntry × Object)} {ρ1 ρ2 : List GoString}
    (h : a.Routed l1 ρ1) (hk : a.deep = false → (k a.base).Routed l2 ρ2) :
    (a.andThen k).Routed (l1 ++ l2) ρ2 := by
  obtain ⟨h1, h2⟩ := h
  unfold Flow.andThen
  by_cases hd : a.deep = true
  · simp only [hd, if_true]
    refine ⟨?_, fun hc => by rw [hd] at hc; simp at hc⟩
    rw [List.map_append]
    exact h1.trans (List.prefix_append _ _)
  · have hd2 : a.deep = false := by simpa using hd
    obtain ⟨k1, k2⟩ := hk hd2
    simp only [hd2, Bool.false_eq_true, if_false]
    refine ⟨?_, fun hc => ⟨?_, (k2 hc).2⟩⟩
    · rw [yieldsOf_append, List.map_append, (h2 hd2).1]
      exact (List.prefix_append_right_inj _).2 k1
    · rw [yieldsOf_append, List.map_append, (h2 hd2).1, (k2 hc).1]

theorem procEntries_routed (r : Repository) (sub : GoString → Tree → Flow)
    (lsub : List GoString → Tree → List (List GoString × TreeEntry × Object))
    (hnames : ∀ h s, r.resolve h = .object (.tree s) → ∀ e ∈ s.Entries, isSegment e.Name)
    (hsub : ∀ b ρ s, (∀ x ∈ ρ, isSegment x) → Represents b ρ →
      (∀ e ∈ s.Entries, isSegment e.Name) → (sub b s).Routed (lsub ρ s) ρ)
    (ρ : List GoString) (hρ : ∀ x ∈ ρ, isSegment x) :
    ∀ (es : List TreeEntry) (base : GoString), Represents base ρ →
      (∀ e ∈ es, isSegment e.Name) →
      (procEntries r sub base es).Routed (listEntries r lsub ρ es) ρ := by
  intro es
  induction es with
  | nil => intro base hb _; exact Flow.Routed.pure base ρ hb
  | cons e es ih =>
    intro base hb hes
    have hes2 : ∀ x ∈ es, isSegment x.Name := fun x hx => hes x (List.mem_cons_of_mem _ hx)
    have hn : isSegment e.Name := hes e (List.mem_cons_self _ _)
    have hj := Join_represents base e.Name ρ hb hρ hn
    cases hr : r.resolve e.Hash with
    | notFound =>
      simp only [procEntries, listEntries, hr]
      exact ih base hb hes2
    | otherFault c =>
      simp only [procEntries, listEntries, hr]
      exact (ih base hb hes2).cons_error _ (.other c) rfl
    | object o =>
      cases o with
      | tree s =>
        simp only [procEntries, listEntries, hr]
        have hρ2 : ∀ x ∈ ρ ++ [e.Name], isSegment x := by
          intro x hx
          rcases List.mem_append.1 hx with h | h
          · exact hρ x h
          · simp only [List.mem_singleton] at h; subst h; exact hn
        have hin := hsub (path.Join [base, e.Name]) (ρ ++ [e.Name]) s hρ2
          (Or.inr ⟨by simp, hj⟩) (hnames _ s hr)
        refine (hin.routed_seq (fun hd => ?_)).cons_yield _ _ e _ hj
        have hb2 := represents_snoc _ _ _ (hin.2 hd).2
        rw [hb2]
        exact ih _ (ascend_represents e.Name ρ hρ hn) hes2
      | blob h =>
        simp only [procEntries, listEntries, hr]
        exact (ih base hb hes2).cons_yield _ _ e _ hj
      | commit h =>
        simp only [procEntries, listEntries, hr]
        exact (ih base hb hes2).cons_yield _ _ e _ hj
      | tag h =>
        simp only [procEntries, listEntries, hr]
        exact (ih base hb hes2).cons_yield _ _ e _ hj

theorem procTree_routed (r : Repository)
    (hnames : ∀ h s, r.resolve h = .object (.tree s) → ∀ e ∈ s.Entries, isSegment e.Name) :
    ∀ (d : Nat) (b : GoString) (ρ : List GoString) (s : Tree), (∀ x ∈ ρ, isSegment x) →
      Represents b ρ → (∀ e ∈ s.Entries, isSegment e.Name) →
      (procTree r d b s).Routed (preorder r d ρ s) ρ := by
  intro d
  induction d with
  | zero => intro b ρ s _ _ _; exact Flow.Routed.stuck b _ ρ
  | succ d ih =>
    intro b ρ s hρ hb hs
    simp only [procTree, preorder]
    exact procEntries_routed r _ _ hnames ih ρ hρ _ b hb hs

theorem procStack_new_events (m : Nat) (r : Repository) (t : Tree) :
    (procStack m (NewTreeWalker r t)).events = (procTree r (m + 1) [] t).events := by
  rw [procStack_new]
  unfold Flow.andThen
  split_ifs <;> simp

/-- The successful results among any number of calls follow the reference
listing, with the slash-joined routes as paths. -/
theorem calls_routed (m : Nat) (r : Repository) (t : Tree)
    (hroot : ∀ e ∈ t.Entries, isSegment e.Name)
    (hnames : ∀ h s, r.resolve h = .object (.tree s) → ∀ e ∈ s.Entries, isSegment e.Name)
    (n : Nat) :
    ∃ res w1, calls m n (NewTreeWalker r t) = some (res, w1) ∧
      yieldsOf res <+: (preorder r (m + 1) [] t).map expected := by
  obtain ⟨w1, h1, _, _⟩ := calls_spec m n (NewTreeWalker r t)
  refine ⟨_, w1, h1, ?_⟩
  have hR := (procTree_routed r hnames (m + 1) [] [] t (by simp) (Or.inl ⟨rfl, Or.inl rfl⟩)
    hroot).1
  rw [← procStack_new_events] at hR
  refine List.IsPrefix.trans ?_ hR
  have hterm : ∃ err, (procStack m (NewTreeWalker r t)).terminal.err = some err := by
    unfold Flow.terminal
    split_ifs
    · exact ⟨_, rfl⟩
    · exact ⟨_, rfl⟩
  obtain ⟨err, herr⟩ := hterm
  rw [List.take_append_eq_append_take, yieldsOf_append, List.take_replicate,
    yieldsOf_replicate_error _ err herr, List.append_nil]
  exact yieldsOf_take_prefix _ _

/-! ## The routes of the reference listing -/

theorem path.joinSlash_eq_intercalate : ∀ (ρ : List GoString),
    path.joinSlash ρ = ['/'].intercalate ρ
  | [] => rfl
  | [s] => by simp [path.joinSlash, List.intercalate]
  | s :: s2 :: ρ => by
    have ih := path.joinSlash_eq_intercalate (s2 :: ρ)
    rw [path.joinSlash_cons_cons, ih]
    simp [List.intercalate]

theorem listEntries_routes (r : Repository)
    (lsub : List GoString → Tree → List (List GoString × TreeEntry × Object))
    (hnames : ∀ h s, r.resolve h = .object (.tree s) → ∀ e ∈ s.Entries, isSegment e.Name)
    (hsub : ∀ ρ s, (∀ x ∈ ρ, isSegment x) → (∀ e ∈ s.Entries, isSegment e.Name) →
      ∀ y ∈ lsub ρ s, y.1 ≠ [] ∧ ∀ x ∈ y.1, isSegment x)
    (ρ : List GoString) (hρ : ∀ x ∈ ρ, isSegment x) :
    ∀ (es : List TreeEntry), (∀ e ∈ es, isSegment e.Name) →
      ∀ y ∈ listEntries r lsub ρ es, y.1 ≠ [] ∧ ∀ x ∈ y.1, isSegment x := by
  intro es
  induction es with
  | nil => intro _ y hy; simp [listEntries] at hy
  | cons e es ih =>
    intro hes y hy
    have hes2 : ∀ x ∈ es, isSegment x.Name := fun x hx => hes x (List.mem_cons_of_mem _ hx)
    have hn : isSegment e.Name := hes e (List.mem_cons_self _ _)
    have hρ2 : ∀ x ∈ ρ ++ [e.Name], isSegment x := by
      intro x hx
      rcases List.mem_append.1 hx with h | h
      · exact hρ x h
      · simp only [List.mem_singleton] at h; subst h; exact hn
    have hhead : (ρ ++ [e.Name]) ≠ [] ∧ ∀ x ∈ ρ ++ [e.Name], isSegment x := ⟨by simp, hρ2⟩
    cases hr : r.resolve e.Hash with
    | notFound =>
      simp only [listEntries, hr] at hy
      exact ih hes2 y hy
    | otherFault c =>
      simp only [listEntries, hr] at hy
      exact ih hes2 y hy
    | object o =>
      cases o with
      | tree s =>
        simp only [listEntries, hr, List.mem_cons, List.mem_append] at hy
        rcases hy with rfl | hy | hy
        · exact hhead
        · exact hsub _ s hρ2 (hnames _ s hr) y hy
        · exact ih hes2 y hy
      | blob h =>
        simp only [listEntries, hr, List.mem_cons] at hy
        rcases hy with rfl | hy
        · exact hhead
        · exact ih hes2 y hy
      | commit h =>
        simp only [listEntries, hr, List.mem_cons] at hy
        rcases hy with rfl | hy
        · exact hhead
        · exact ih hes2 y hy
      | tag h =>
        simp only [listEntries, hr, List.mem_cons] at hy
        rcases hy with rfl | hy
        · exact hhead
        · exact ih hes2 y hy

theorem preorder_routes (r : Repository)
    (hnames : ∀ h s, r.resolve h = .object (.tree s) → ∀ e ∈ s.Entries, isSegment e.Name) :
    ∀ (d : Nat) (ρ : List GoString) (s : Tree), (∀ x ∈ ρ, isSegment x) →
      (∀ e ∈ s.Entries, isSegment e.Name) →
      ∀ y ∈ preorder r d ρ s, y.1 ≠ [] ∧ ∀ x ∈ y.1, isSegment x := by
  intro d
  induction d with
  | zero => intro ρ s _ _ y hy; simp [preorder] at hy
  | succ d ih =>
    intro ρ s hρ hs
    simp only [preorder]
    exact listEntries_routes r _ hnames ih ρ hρ _ hs

/-- A path made of segments joined by single slashes splits at the slashes into these
segments: nothing is empty in front of, between or behind the separators. -/
theorem splitOn_joinSlash (ρ : List GoString) (hne : ρ ≠ []) (hρ : ∀ x ∈ ρ, isSegment x) :
    (path.joinSlash ρ).splitOn '/' = ρ := by
  rw [path.joinSlash_eq_intercalate]
  exact List.splitOn_intercalate _ '/' (fun l hl => (hρ l hl).2.1) hne

/-! ## Not-found tolerance -/

theorem Pruned.refl (r : Repository) : ∀ (l : List TreeEntry), Pruned r l l
  | [] => Pruned.nil
  | e :: l => Pruned.keep e (Pruned.refl r l)

theorem Pruned.eraseIdx (r : Repository) : ∀ (l : List TreeEntry) (i : Nat) (e : TreeEntry),
    l[i]? = some e → r.resolve e.Hash = .notFound → Pruned r l (l.eraseIdx i)
  | [], _, _, h, _ => by simp at h
  | x :: l, 0, e, h, hm => by
    simp only [List.getElem?_cons_zero, Option.some.injEq] at h
    subst h
    exact Pruned.drop x hm (Pruned.refl r l)
  | x :: l, i + 1, e, h, hm => by
    simp only [List.getElem?_cons_succ] at h
    exact Pruned.keep x (Pruned.eraseIdx r l i e h hm)

theorem deleteEntry_pruned (r : Repository) (t0 : Tree) (i : Nat) (e0 : TreeEntry)
    (h0 : t0.Entries[i]? = some e0) (hm : r.resolve e0.Hash = .notFound) (s : Tree) :
    Pruned r s.Entries (deleteEntry t0 i s).Entries := by
  unfold deleteEntry
  split_ifs with h
  · subst h
    exact Pruned.eraseIdx r _ i e0 h0 hm
  · exact Pruned.refl r _

theorem Flow.mapTree_cons (f : Tree → Tree) (v : NextResult) (a : Flow) :
    (a.cons v).mapTree f = (a.mapTree f).cons (v.mapTree f) := by
  simp [Flow.mapTree, Flow.cons]

theorem Flow.mapTree_andThen (f : Tree → Tree) (a : Flow) (k k1 : GoString → Flow)
    (hk : ∀ b, k1 b = (k b).mapTree f) :
    (a.mapTree f).andThen k1 = (a.andThen k).mapTree f := by
  unfold Flow.andThen
  by_cases hd : a.deep <;> simp [Flow.mapTree, hd, hk]

theorem procEntries_pruned (r : Repository) (f : Tree → Tree)
    (sub sub1 : GoString → Tree → Flow)
    (hsub : ∀ b s, sub1 b (f s) = (sub b s).mapTree f) :
    ∀ (es es1 : List TreeEntry), Pruned r es es1 → ∀ (base : GoString),
      procEntries (r.mapTrees f) sub1 base es1 = (procEntries r sub base es).mapTree f := by
  intro es es1 h
  induction h with
  | nil => intro base; simp [procEntries, Flow.mapTree]
  | @keep e l l1 _ ih =>
    intro base
    cases hr : r.resolve e.Hash with
    | notFound =>
      have hr1 : (r.mapTrees f).resolve e.Hash = .notFound := by
        simp [Repository.mapTrees, hr]
      simp only [procEntries, hr, hr1]
      exact ih base
    | otherFault c =>
      have hr1 : (r.mapTrees f).resolve e.Hash = .otherFault c := by
        simp [Repository.mapTrees, hr]
      simp only [procEntries, hr, hr1, Flow.mapTree_cons, ih base]
      rfl
    | object o =>
      cases o with
      | tree s =>
        have hr1 : (r.mapTrees f).resolve e.Hash = .object (.tree (f s)) := by
          simp [Repository.mapTrees, hr, Object.mapTree]
        simp only [procEntries, hr, hr1, Flow.mapTree_cons, hsub]
        rw [Flow.mapTree_andThen f _ (fun b => procEntries r sub (ascend b) l) _
          (fun b => ih (ascend b))]
        rfl
      | blob h =>
        have hr1 : (r.mapTrees f).resolve e.Hash = .object (.blob h) := by
          simp [Repository.mapTrees, hr, Object.mapTree]
        simp only [procEntries, hr, hr1, Flow.mapTree_cons, ih base]
        rfl
      | commit h =>
        have hr1 : (r.mapTrees f).resolve e.Hash = .object (.commit h) := by
          simp [Repository.mapTrees, hr, Object.mapTree]
        simp only [procEntries, hr, hr1, Flow.mapTree_cons, ih base]
        rfl
      | tag h =>
        have hr1 : (r.mapTrees f).resolve e.Hash = .object (.tag h) := by
          simp [Repository.mapTrees, hr, Object.mapTree]
        simp only [procEntries, hr, hr1, Flow.mapTree_cons, ih base]
        rfl
  | @drop e l l1 hm _ ih =>
    intro base
    simp only [procEntries, hm]
    exact ih base

theorem procTree_pruned (r : Repository) (f : Tree → Tree)
    (hf : ∀ s, Pruned r s.Entries (f s).Entries) :
    ∀ (d : Nat) (base : GoString) (s : Tree),
      procTree (r.mapTrees f) d base (f s) = (procTree r d base s).mapTree f := by
  intro d
  induction d with
  | zero => intro base s; simp [procTree, Flow.mapTree]
  | succ d ih =>
    intro base s
    simp only [procTree]
    exact procEntries_pruned r f _ _ ih _ _ (hf s) base

theorem procStack_pruned (m : Nat) (r : Repository) (f : Tree → Tree)
    (hf : ∀ s, Pruned r s.Entries (f s).Entries) (t : Tree) :
    procStack m (NewTreeWalker (r.mapTrees f) (f t))
      = (procStack m (NewTreeWalker r t)).mapTree f := by
  rw [procStack_new, procStack_new, procTree_pruned r f hf]
  exact Flow.mapTree_andThen f _ _ _ (fun b => by simp [Flow.mapTree])

theorem Flow.mapTree_terminal (f : Tree → Tree) (a : Flow) :
    (a.mapTree f).terminal = a.terminal.mapTree f := by
  unfold Flow.terminal
  simp only [Flow.mapTree]
  split_ifs <;> rfl

/-- Not-found tolerance for any way `f` of deleting unresolved entries from trees. -/
theorem calls_pruned (m : Nat) (r : Repository) (f : Tree → Tree)
    (hf : ∀ s, Pruned r s.Entries (f s).Entries) (t : Tree) (n : Nat) :
    (calls m n (NewTreeWalker (r.mapTrees f) (f t))).map (fun p => p.1)
      = (calls m n (NewTreeWalker r t)).map (fun p => p.1.map (NextResult.mapTree f)) := by
  obtain ⟨w1, h1, _, _⟩ := calls_spec m n (NewTreeWalker (r.mapTrees f) (f t))
  obtain ⟨w2, h2, _, _⟩ := calls_spec m n (NewTreeWalker r t)
  rw [h1, h2, procStack_pruned m r f hf]
  simp only [Option.map_some', Option.some.injEq, Flow.mapTree_terminal]
  simp [Flow.mapTree, List.map_take]

/-! ## What a single result can be -/

theorem Flow.Faithful.cons_event {r : Repository} {a : Flow} (h : a.Faithful r) (v : NextResult)
    (hv : (v.err = none ∧ ∃ o, v.obj = some o ∧ r.resolve v.entry.Hash = .object o) ∨
      (∃ c, v.err = some (.other c) ∧ v.obj = none ∧ r.resolve v.entry.Hash = .otherFault c)) :
    (a.cons v).Faithful r := by
  intro ev hev
  simp only [Flow.cons, List.mem_cons] at hev
  rcases hev with rfl | hev
  · exact hv
  · exact h ev hev

theorem Flow.Faithful.faithful_seq {r : Repository} {a : Flow} {k : GoString → Flow}
    (h : a.Faithful r) (hk : (k a.base).Faithful r) : (a.andThen k).Faithful r := by
  unfold Flow.andThen
  split_ifs
  · exact h
  · intro ev hev
    rcases List.mem_append.1 hev with hev | hev
    · exact h ev hev
    · exact hk ev hev

theorem procEntries_faithful (r : Repository) (sub : GoString → Tree → Flow)
    (hsub : ∀ b s, (sub b s).Faithful r) :
    ∀ (es : List TreeEntry) (base : GoString), (procEntries r sub base es).Faithful r := by
  intro es
  induction es with
  | nil => intro base ev hev; simp [procEntries] at hev
  | cons e es ih =>
    intro base
    cases hr : r.resolve e.Hash with
    | notFound => simp only [procEntries, hr]; exact ih base
    | otherFault c =>
      simp only [procEntries, hr]
      exact (ih base).cons_event _ (Or.inr ⟨c, rfl, rfl, hr⟩)
    | object o =>
      cases o with
      | tree s =>
        simp only [procEntries, hr]
        exact ((hsub _ s).faithful_seq (ih _)).cons_event _ (Or.inl ⟨rfl, _, rfl, hr⟩)
      | blob h =>
        simp only [procEntries, hr]
        exact (ih base).cons_event _ (Or.inl ⟨rfl, _, rfl, hr⟩)
      | commit h =>
        simp only [procEntries, hr]
        exact (ih base).cons_event _ (Or.inl ⟨rfl, _, rfl, hr⟩)
      | tag h =>
        simp only [procEntries, hr]
        exact (ih base).cons_event _ (Or.inl ⟨rfl, _, rfl, hr⟩)

theorem procTree_faithful (r : Repository) :
    ∀ (d : Nat) (base : GoString) (s : Tree), (procTree r d base s).Faithful r := by
  intro d
  induction d with
  | zero => intro base s ev hev; simp [procTree] at hev
  | succ d ih => intro base s; exact procEntries_faithful r _ ih _ _

theorem procFrames_faithful (r : Repository) (m : Nat) :
    ∀ (fs : List treeEntryIter) (base : GoString), (procFrames r m base fs).Faithful r := by
  intro fs
  induction fs with
  | nil => intro base ev hev; simp [procFrames] at hev
  | cons f fs ih =>
    intro base
    simp only [procFrames]
    exact (procEntries_faithful r _ (procTree_faithful r _) _ _).faithful_seq (ih _)

theorem procStack_faithful (m : Nat) (w : TreeWalker) : (procStack m w).Faithful w.r := by
  unfold procStack
  split_ifs
  · intro ev hev; simp at hev
  · exact procFrames_faithful w.r m _ _

/-- The flow of a walker is stuck at the depth guard from the start exactly when the
stack is too deep. -/
theorem procStack_stuck_iff (m : Nat) (w : TreeWalker) :
    ((procStack m w).events = [] ∧ (procStack m w).deep = true) ↔ m + 1 < w.stack.length := by
  constructor
  · rintro ⟨h1, h2⟩
    by_contra hc
    simp only [procStack, hc, if_false] at h1 h2
    exact procFrames_deep_events w.r m _ _ h2 h1
  · intro h
    simp [procStack, h]

theorem Next_nil (m : Nat) (w : TreeWalker) (h : w.stack = []) :
    Next m w = some (eofResult, w) := by
  have hb : loopBound w = 0 + 1 := by simp [loopBound, h]
  rw [Next, hb, nextLoop_nil m 0 w _ h]
  rfl

theorem Next_deep (m : Nat) (w : TreeWalker) (h : m + 1 < w.stack.length) :
    Next m w = some (depthResult, w) := by
  obtain ⟨k, hk⟩ : ∃ k, loopBound w = k + 1 := ⟨loopBound w - 1, by
    have := loopBound_pos w; omega⟩
  rw [Next, hk, nextLoop_deep m k w _ h]
  rfl

/-- The error of the result of `Next`, read off the flow. -/
theorem headD_err_cases (m : Nat) (w : TreeWalker) :
    let res := (procStack m w).events.headD (procStack m w).terminal
    ((procStack m w).events ≠ [] ∧
        ((res.err = none ∧ ∃ o, res.obj = some o ∧ w.r.resolve res.entry.Hash = .object o) ∨
         (∃ c, res.err = some (.other c) ∧ res.obj = none
            ∧ w.r.resolve res.entry.Hash = .otherFault c))) ∨
      ((procStack m w).events = [] ∧ (procStack m w).deep = false ∧ res = eofResult) ∨
      ((procStack m w).events = [] ∧ (procStack m w).deep = true ∧ res = depthResult) := by
  intro res
  cases hev : (procStack m w).events with
  | nil =>
    right
    by_cases hd : (procStack m w).deep = true
    · right; exact ⟨rfl, hd, by simp [res, hev, Flow.terminal, hd]⟩
    · left
      have hd2 : (procStack m w).deep = false := by simpa using hd
      exact ⟨rfl, hd2, by simp [res, hev, Flow.terminal, hd2]⟩
  | cons ev rest =>
    left
    refine ⟨by simp, ?_⟩
    have := procStack_faithful m w ev (by rw [hev]; simp)
    simpa [res, hev] using this

/-! ## The depth guard -/

theorem procEntries_deep (r : Repository) (sub : GoString → Tree → Flow) :
    ∀ (es : List TreeEntry) (base : GoString),
      (∃ e ∈ es, ∃ s, r.resolve e.Hash = .object (.tree s) ∧ ∀ b, (sub b s).deep = true) →
      (procEntries r sub base es).deep = true := by
  intro es
  induction es with
  | nil => intro base h; simp at h
  | cons e es ih =>
    intro base h
    obtain ⟨x, hx, s, hxs, hdeep⟩ := h
    cases hr : r.resolve e.Hash with
    | notFound =>
      simp only [procEntries, hr]
      rcases List.mem_cons.1 hx with rfl | hx
      · rw [hr] at hxs; cases hxs
      · exact ih base ⟨x, hx, s, hxs, hdeep⟩
    | otherFault c =>
      simp only [procEntries, hr, Flow.cons]
      rcases List.mem_cons.1 hx with rfl | hx
      · rw [hr] at hxs; cases hxs
      · exact ih base ⟨x, hx, s, hxs, hdeep⟩
    | object o =>
      rcases List.mem_cons.1 hx with rfl | hx
      · rw [hr] at hxs
        cases hxs
        simp only [procEntries, hr, Flow.cons]
        rw [Flow.deep_andThen _ _ (hdeep _)]
        exact hdeep _
      · have hrest := fun b => ih b ⟨x, hx, s, hxs, hdeep⟩
        cases o with
        | tree s1 =>
          simp only [procEntries, hr, Flow.cons]
          unfold Flow.andThen
          split_ifs with hd
          · exact hd
          · exact hrest _
        | blob h => simp only [procEntries, hr, Flow.cons]; exact hrest base
        | commit h => simp only [procEntries, hr, Flow.cons]; exact hrest base
        | tag h => simp only [procEntries, hr, Flow.cons]; exact hrest base

theorem procTree_deep (r : Repository) :
    ∀ (d : Nat) (base : GoString) (t : Tree), deeperThan r d t = true →
      (procTree r d base t).deep = true := by
  intro d
  induction d with
  | zero => intro base t _; rfl
  | succ d ih =>
    intro base t h
    simp only [deeperThan, List.any_eq_true] at h
    obtain ⟨e, he, hs⟩ := h
    simp only [procTree]
    refine procEntries_deep r _ _ base ⟨e, he, ?_⟩
    cases hr : r.resolve e.Hash with
    | notFound => simp [hr] at hs
    | otherFault c => simp [hr] at hs
    | object o =>
      cases o with
      | tree s =>
        simp only [hr] at hs
        exact ⟨s, rfl, fun b => ih b s hs⟩
      | blob h => simp [hr] at hs
      | commit h => simp [hr] at hs
      | tag h => simp [hr] at hs

theorem procStack_new_deep (m : Nat) (r : Repository) (t : Tree)
    (h : deeperThan r (m + 1) t = true) : (procStack m (NewTreeWalker r t)).deep = true := by
  rw [procStack_new, Flow.deep_andThen _ _ (procTree_deep r _ _ t h)]
  exact procTree_deep r _ _ t h

theorem events_err_ne_depth (m : Nat) (w : TreeWalker) :
    ∀ v ∈ (procStack m w).events, v.err ≠ some .ErrMaxTreeDepth := by
  intro v hv
  rcases procStack_faithful m w v hv with ⟨h, _⟩ | ⟨c, h, _⟩ <;> simp [h]

theorem events_err_ne_eof (m : Nat) (w : TreeWalker) :
    ∀ v ∈ (procStack m w).events, v.err ≠ some .EOF := by
  intro v hv
  rcases procStack_faithful m w v hv with ⟨h, _⟩ | ⟨c, h, _⟩ <;> simp [h]

/-! ## `ForEach` -/

theorem ForEach_of_walk (m : Nat) : ∀ (n : Nat) (w : TreeWalker) (ys : List NextResult)
    (log : List (GoString × TreeEntry)),
    walk m n w = some (ys, .EOF) →
    ∀ fuel, ys.length < fuel →
    ∃ w1, ForEach m (fun _ _ _ => none) fuel w log
      = some (none, w1, log ++ ys.map (fun v => (v.name, v.entry))) := by
  intro n
  induction n with
  | zero => intro w ys log h; simp [walk] at h
  | succ n ih =>
    intro w ys log h fuel hf
    obtain ⟨f1, rfl⟩ : ∃ f1, fuel = f1 + 1 := ⟨fuel - 1, by omega⟩
    obtain ⟨res, w1, hN⟩ := Next_total m w
    simp only [walk, hN] at h
    cases he : res.err with
    | some e =>
      simp only [he, Option.some.injEq, Prod.mk.injEq] at h
      obtain ⟨rfl, rfl⟩ := h
      exact ⟨w1, by simp [ForEach, hN, he]⟩
    | none =>
      simp only [he, Option.map_eq_some', Prod.mk.injEq] at h
      obtain ⟨⟨ys1, e1⟩, hw, rfl, rfl⟩ := h
      obtain ⟨w2, h2⟩ := ih w1 ys1 (log ++ [(res.name, res.entry)]) hw f1
        (by simp only [List.length_cons] at hf; omega)
      exact ⟨w2, by simp [ForEach, hN, he, h2]⟩

/-- `ForEach` on a run of `k + 1` yields on which the callback, fed with the invocations
made so far, returns nil `k` times and then `ErrStop`. -/
theorem ForEach_stop_run (m : Nat) (cb : Callback) : ∀ (k : Nat) (w wN : TreeWalker)
    (res : List NextResult) (log : List (GoString × TreeEntry)),
    calls m (k + 1) w = some (res, wN) → (∀ v ∈ res, v.err = none) →
    (∀ i v, i < k → res[i]? = some v →
      cb (log ++ (res.take i).map (fun v => (v.name, v.entry))) v.name v.entry = none) →
    (∀ v, res[k]? = some v →
      cb (log ++ (res.take k).map (fun v => (v.name, v.entry))) v.name v.entry
        = some .ErrStop) →
    ∀ fuel, k < fuel →
    ForEach m cb fuel w log = some (none, wN, log ++ res.map (fun v => (v.name, v.entry))) := by
  intro k
  induction k with
  | zero =>
    intro w wN res log hc hy _ hstop fuel hf
    obtain ⟨f1, rfl⟩ : ∃ f1, fuel = f1 + 1 := ⟨fuel - 1, by omega⟩
    obtain ⟨r1, w1, hN⟩ := Next_total m w
    simp only [calls, hN, Option.map_some', Option.some.injEq, Prod.mk.injEq] at hc
    obtain ⟨rfl, rfl⟩ := hc
    have he : r1.err = none := hy r1 (by simp)
    have hcb := hstop r1 (by simp)
    simp only [List.take_zero, List.map_nil, List.append_nil] at hcb
    simp [ForEach, hN, he, hcb]
  | succ k ih =>
    intro w wN res log hc hy hnil hstop fuel hf
    obtain ⟨f1, rfl⟩ : ∃ f1, fuel = f1 + 1 := ⟨fuel - 1, by omega⟩
    obtain ⟨r1, w1, hN⟩ := Next_total m w
    rw [calls] at hc
    simp only [hN, Option.map_eq_some', Prod.mk.injEq] at hc
    obtain ⟨⟨res1, w2⟩, hc1, rfl, rfl⟩ := hc
    have he : r1.err = none := hy r1 (by simp)
    have hcb := hnil 0 r1 (by omega) (by simp)
    simp only [List.take_zero, List.map_nil, List.append_nil] at hcb
    have := ih w1 w2 res1 (log ++ [(r1.name, r1.entry)]) hc1
      (fun v hv => hy v (List.mem_cons_of_mem _ hv))
      (fun i v hi hv => by
        have := hnil (i + 1) v (by omega) (by simpa using hv)
        simpa [List.append_assoc] using this)
      (fun v hv => by
        have := hstop v (by simpa using hv)
        simpa [List.append_assoc] using this) f1 (by omega)
    simp [ForEach, hN, he, hcb, this]

/-- A tree has a chain nested `d` levels below it exactly when it does not fit in `d`
levels. -/
theorem deeperThan_eq_not_withinDepth (r : Repository) :
    ∀ (d : Nat) (t : Tree), deeperThan r d t = !withinDepth r d t := by
  intro d
  induction d with
  | zero => intro t; rfl
  | succ d ih =>
    intro t
    simp only [deeperThan, withinDepth]
    induction t.Entries with
    | nil => rfl
    | cons e es ihe =>
      simp only [List.any_cons, List.all_cons, ihe, Bool.not_and]
      congr 1
      cases hr : r.resolve e.Hash with
      | notFound => rfl
      | otherFault c => rfl
      | object o => cases o <;> simp [ih]


theorem listEntries_congr (r : Repository)
    (sub1 sub2 : List GoString → Tree → List (List GoString × TreeEntry × Object))
    (ρ : List GoString) : ∀ (es : List TreeEntry),
      (∀ e ∈ es, ∀ s, r.resolve e.Hash = .object (.tree s) → ∀ ρ1, sub1 ρ1 s = sub2 ρ1 s) →
      listEntries r sub1 ρ es = listEntries r sub2 ρ es := by
  intro es
  induction es with
  | nil => intro _; rfl
  | cons e es ih =>
    intro h
    have ih2 := ih (fun x hx => h x (List.mem_cons_of_mem _ hx))
    cases hr : r.resolve e.Hash with
    | notFound => simp only [listEntries, hr, ih2]
    | otherFault c => simp only [listEntries, hr, ih2]
    | object o =>
      cases o with
      | tree s => simp only [listEntries, hr, ih2, h e (List.mem_cons_self _ _) s hr]
      | blob h1 => simp only [listEntries, hr, ih2]
      | commit h1 => simp only [listEntries, hr, ih2]
      | tag h1 => simp only [listEntries, hr, ih2]

/-- Once the depth bound covers the tree, a larger bound lists nothing more: the
reference listing of a tree that fits in `d` levels is its complete pre-order listing. -/
theorem preorder_stable (r : Repository) : ∀ (d k : Nat) (ρ : List GoString) (t : Tree),
    withinDepth r d t = true → preorder r (d + k) ρ t = preorder r d ρ t := by
  intro d
  induction d with
  | zero => intro k ρ t h; simp [withinDepth] at h
  | succ d ih =>
    intro k ρ t h
    rw [show d + 1 + k = (d + k) + 1 by omega]
    simp only [preorder]
    apply listEntries_congr
    intro e he s hr ρ1
    simp only [withinDepth, List.all_eq_true] at h
    have := h e he
    simp only [hr] at this
    exact ih k ρ1 s this

/-! ## The claims -/

theorem exRepo_answers : ∀ h c, exRepo.resolve h ≠ .otherFault c := by
  intro h c
  simp only [exRepo]
  split <;> simp

theorem exRepo_names : ∀ h s, exRepo.resolve h = .object (.tree s) →
    ∀ e ∈ s.Entries, isSegment e.Name := by
  intro h s hr
  simp only [exRepo] at hr
  split at hr <;> simp at hr
  subst hr
  decide

theorem calls_length (m : Nat) : ∀ (n : Nat) (w w1 : TreeWalker) (res : List NextResult),
    calls m n w = some (res, w1) → res.length = n := by
  intro n
  induction n with
  | zero => intro w w1 res h; simp only [calls, Option.some.injEq, Prod.mk.injEq] at h; simp [← h.1]
  | succ n ih =>
    intro w w1 res h
    obtain ⟨r1, w2, hN⟩ := Next_total m w
    rw [calls] at h
    simp only [hN, Option.map_eq_some', Prod.mk.injEq] at h
    obtain ⟨⟨res1, w3⟩, hc, rfl, rfl⟩ := h
    simp [ih w2 w3 res1 hc]

/-- C1: for a store that answers every lookup with an object or with "not found", and a
root tree in which no tree is nested more than `maxTreeDepth` levels below the root,
repeated calls of `Next` on `NewTreeWalker r t` yield exactly the reference pre-order
listing of the tree (each entry paired with the object the store resolves its hash to,
unresolved entries left out) and then `io.EOF`; the number of successful yields is the
number of entries of that listing. -/
theorem C1_walk_yields_preorder (m : Nat) (r : Repository) (t : Tree)
    (hstore : ∀ h c, r.resolve h ≠ .otherFault c)
    (hdepth : withinDepth r (m + 1) t = true) :
    (walk m ((preorder r (m + 1) [] t).length + 1) (NewTreeWalker r t)).map
        (fun p => (p.1.map NextResult.item, p.2))
      = some ((preorder r (m + 1) [] t).map (fun y => (y.2.1, some y.2.2)), GoError.EOF) :=
  walk_preorder m r t hstore hdepth _ (Nat.lt_succ_self _)

/-- Witness of C1: the root `{a.txt (blob), sub (tree {b.txt})}` yields `a.txt`, `sub`,
`sub/b.txt` and then `io.EOF`. -/
theorem C1_witness :
    withinDepth exRepo (1024 + 1) exRoot = true ∧
    (walk 1024 4 (NewTreeWalker exRepo exRoot)).map (fun p => (p.1.map (fun v => v.name), p.2))
      = some (["a.txt".toList, "sub".toList, "sub/b.txt".toList], GoError.EOF) ∧
    (walk 1024 ((preorder exRepo (1024 + 1) [] exRoot).length + 1)
        (NewTreeWalker exRepo exRoot)).map (fun p => (p.1.map NextResult.item, p.2))
      = some ((preorder exRepo (1024 + 1) [] exRoot).map (fun y => (y.2.1, some y.2.2)),
          GoError.EOF) :=
  ⟨by decide, by decide, C1_walk_yields_preorder 1024 exRepo exRoot exRepo_answers (by decide)⟩

/-- C2: when the entry names of the root tree and of every tree of the store are single
path segments, the successful results of any number of calls of `Next` follow the
reference listing, and the path returned with each entry is the names on the route from
the root tree down to that entry joined by single slashes; split at the slashes, no such
path has an empty piece (no leading, doubled or trailing separator). -/
theorem C2_paths_are_joined_routes (m : Nat) (r : Repository) (t : Tree)
    (hroot : ∀ e ∈ t.Entries, isSegment e.Name)
    (hnames : ∀ h s, r.resolve h = .object (.tree s) → ∀ e ∈ s.Entries, isSegment e.Name)
    (n : Nat) :
    ∃ res w1, calls m n (NewTreeWalker r t) = some (res, w1) ∧
      yieldsOf res <+: (preorder r (m + 1) [] t).map expected ∧
      ∀ y ∈ yieldsOf res, ∀ s ∈ y.1.splitOn '/', s ≠ [] := by
  obtain ⟨res, w1, h1, h2⟩ := calls_routed m r t hroot hnames n
  refine ⟨res, w1, h1, h2, fun y hy s hs => ?_⟩
  obtain ⟨z, hz, rfl⟩ := List.mem_map.1 (h2.subset hy)
  obtain ⟨hne, hseg⟩ := preorder_routes r hnames (m + 1) [] t (by simp) hroot z hz
  simp only [expected] at hs
  rw [splitOn_joinSlash z.1 hne hseg] at hs
  exact (hseg s hs).1

/-- Witness of C2: in the example with `c.txt` after `sub`, the entry yielded after the
walker has left `sub` has the path `c.txt`. -/
theorem C2_witness :
    (∀ e ∈ exRootAfter.Entries, isSegment e.Name) ∧
    (calls 1024 4 (NewTreeWalker exRepo exRootAfter)).map (fun p => p.1.map (fun v => v.name))
      = some ["sub".toList, "sub/b.txt".toList, "c.txt".toList, []] ∧
    ∃ res w1, calls 1024 4 (NewTreeWalker exRepo exRootAfter) = some (res, w1) ∧
      yieldsOf res <+: (preorder exRepo (1024 + 1) [] exRootAfter).map expected ∧
      ∀ y ∈ yieldsOf res, ∀ s ∈ y.1.splitOn '/', s ≠ [] :=
  ⟨by decide, by decide,
    C2_paths_are_joined_routes 1024 exRepo exRootAfter (by decide) exRepo_names 4⟩

/-- C3: if the store reports the hash of the entry at index `i` of the tree `t0` as not
found, then deleting that entry from `t0` (in the root and wherever the store holds
`t0`) leaves the results of any number of calls of `Next` the same: the same paths,
entries and errors in the same order, and the same objects, `t0` itself appearing
without the deleted entry. -/
theorem C3_not_found_tolerance (m : Nat) (r : Repository) (t t0 : Tree) (i : Nat)
    (e0 : TreeEntry) (h0 : t0.Entries[i]? = some e0) (hmiss : r.resolve e0.Hash = .notFound)
    (n : Nat) :
    (calls m n (NewTreeWalker (r.mapTrees (deleteEntry t0 i)) (deleteEntry t0 i t))).map
        (fun p => p.1)
      = (calls m n (NewTreeWalker r t)).map
        (fun p => p.1.map (NextResult.mapTree (deleteEntry t0 i))) ∧
    (calls m n (NewTreeWalker (r.mapTrees (deleteEntry t0 i)) (deleteEntry t0 i t))).map
        (fun p => p.1.map (fun v => (v.name, v.entry, v.err)))
      = (calls m n (NewTreeWalker r t)).map
        (fun p => p.1.map (fun v => (v.name, v.entry, v.err))) := by
  have h := calls_pruned m r (deleteEntry t0 i) (deleteEntry_pruned r t0 i e0 h0 hmiss) t n
  refine ⟨h, ?_⟩
  have h2 := congrArg (Option.map (List.map (fun v : NextResult => (v.name, v.entry, v.err)))) h
  simp only [Option.map_map] at h2
  rw [show ((fun p : List NextResult × TreeWalker =>
        p.1.map (fun v => (v.name, v.entry, v.err))))
      = (List.map (fun v : NextResult => (v.name, v.entry, v.err))) ∘ (fun p => p.1) from rfl,
    h2]
  congr 1
  funext p
  simp [NextResult.mapTree, Function.comp]

/-- Witness of C3: the entry `gone` of the example root is not resolved. -/
theorem C3_witness :
    exRootGap.Entries[1]? = some ⟨"gone".toList, 0, 9⟩ ∧
    exRepo.resolve 9 = .notFound ∧
    (calls 1024 5 (NewTreeWalker (exRepo.mapTrees (deleteEntry exRootGap 1))
        (deleteEntry exRootGap 1 exRootGap))).map (fun p => p.1.map (fun v => (v.name, v.entry, v.err)))
      = (calls 1024 5 (NewTreeWalker exRepo exRootGap)).map
        (fun p => p.1.map (fun v => (v.name, v.entry, v.err))) :=
  ⟨by decide, by decide,
    (C3_not_found_tolerance 1024 exRepo exRootGap exRootGap 1 ⟨"gone".toList, 0, 9⟩
      (by decide) (by decide) 5).2⟩

/-- C4: `Next` always returns, and its error is nil, `io.EOF`, `ErrMaxTreeDepth`, or the
failure the store reported for the hash of the returned entry; it is never
`ErrObjectNotFound`. -/
theorem C4_never_surfaces_not_found (m : Nat) (w : TreeWalker) :
    ∃ res w1, Next m w = some (res, w1) ∧
      (res.err = none ∨ res.err = some .EOF ∨ res.err = some .ErrMaxTreeDepth ∨
        ∃ c, res.err = some (.other c) ∧ w.r.resolve res.entry.Hash = .otherFault c) ∧
      res.err ≠ some .ErrObjectNotFound := by
  obtain ⟨w1, h, _⟩ := Next_spec m w
  refine ⟨_, w1, h, ?_⟩
  rcases headD_err_cases m w with ⟨_, ⟨h1, _⟩ | ⟨c, h1, _, h2⟩⟩ | ⟨_, _, h1⟩ | ⟨_, _, h1⟩
  · exact ⟨Or.inl h1, fun hc => by rw [h1] at hc; cases hc⟩
  · exact ⟨Or.inr (Or.inr (Or.inr ⟨c, h1, h2⟩)), fun hc => by rw [h1] at hc; cases hc⟩
  · rw [h1]; exact ⟨Or.inr (Or.inl rfl), by simp [eofResult]⟩
  · rw [h1]; exact ⟨Or.inr (Or.inr (Or.inl rfl)), by simp [depthResult]⟩


/-- C5: once a call of `Next` has returned `io.EOF` the stack is empty, and every later
call returns `io.EOF` again, with no entry, and leaves the walker as it is. -/
theorem C5_eof_is_terminal (m : Nat) (w w1 : TreeWalker) (res : NextResult)
    (h : Next m w = some (res, w1)) (he : res.err = some .EOF) :
    w1.stack = [] ∧ ∀ n, calls m n w1 = some (List.replicate n eofResult, w1) := by
  obtain ⟨w2, h2, _, _, _, h3⟩ := Next_spec m w
  rw [h] at h2
  simp only [Option.some.injEq, Prod.mk.injEq] at h2
  obtain ⟨rfl, rfl⟩ := h2
  have hs : w1.stack = [] := by
    rcases headD_err_cases m w with ⟨_, ⟨h1, _⟩ | ⟨c, h1, _⟩⟩ | ⟨h4, h5, _⟩ | ⟨_, _, h1⟩
    · rw [h1] at he; cases he
    · rw [h1] at he; cases he
    · exact h3 h4 h5
    · rw [h1] at he; cases he
  refine ⟨hs, fun n => ?_⟩
  induction n with
  | zero => rfl
  | succ n ih => simp [calls, Next_nil m w1 hs, ih, List.replicate_succ]

/-- Witness of C5: the walker of the example after its three entries have been
yielded. -/
theorem C5_witness :
    (⟨[], ['.'], exRepo, exRoot⟩ : TreeWalker).stack = [] ∧
    ∀ n, calls 1024 n ⟨[], ['.'], exRepo, exRoot⟩
      = some (List.replicate n eofResult, ⟨[], ['.'], exRepo, exRoot⟩) :=
  C5_eof_is_terminal 1024 ⟨[⟨exRoot, 2⟩, ⟨exSub, 1⟩], "sub".toList, exRepo, exRoot⟩
    ⟨[], ['.'], exRepo, exRoot⟩ eofResult rfl rfl

/-- C6 (as amended): `Next` fails with `ErrMaxTreeDepth` if and only if, when it is
called, the index of the top frame exceeds `maxTreeDepth`, that is the stack holds at
least `maxTreeDepth + 2` frames; in that case it yields no entry and leaves the walker
unchanged. -/
theorem C6_depth_guard (m : Nat) (w : TreeWalker) :
    ∃ res w1, Next m w = some (res, w1) ∧
      (res.err = some .ErrMaxTreeDepth ↔ m + 1 < w.stack.length) ∧
      (m + 1 < w.stack.length → res = depthResult ∧ w1 = w) := by
  by_cases hd : m + 1 < w.stack.length
  · exact ⟨depthResult, w, Next_deep m w hd, by simp [hd, depthResult], fun _ => ⟨rfl, rfl⟩⟩
  · obtain ⟨w1, h, _⟩ := Next_spec m w
    refine ⟨_, w1, h, ?_, fun hc => absurd hc hd⟩
    simp only [hd, iff_false]
    rcases headD_err_cases m w with ⟨_, ⟨h1, _⟩ | ⟨c, h1, _⟩⟩ | ⟨_, _, h1⟩ | ⟨h4, h5, _⟩
    · rw [h1]; simp
    · rw [h1]; simp
    · rw [h1]; simp [eofResult]
    · exact absurd ((procStack_stuck_iff m w).1 ⟨h4, h5⟩) hd

theorem exLoopWalker_next (m k : Nat) (hk : k ≤ m) :
    Next m (exLoopWalker k) =
      some (⟨path.joinSlash (List.replicate (k + 1) "d".toList), ⟨"d".toList, 0, 7⟩,
        some (.tree exLoopTree), none⟩, exLoopWalker (k + 1)) := by
  obtain ⟨f, hf⟩ : ∃ f, loopBound (exLoopWalker k) = f + 1 := ⟨loopBound (exLoopWalker k) - 1, by
    have := loopBound_pos (exLoopWalker k); omega⟩
  have hseg : isSegment "d".toList := by decide
  have hrep : Represents (exLoopWalker k).base (List.replicate k "d".toList) := by
    by_cases h0 : k = 0
    · subst h0; exact Or.inl ⟨rfl, Or.inl rfl⟩
    · exact Or.inr ⟨by simpa using h0, rfl⟩
  have hjoin := Join_represents (exLoopWalker k).base "d".toList (List.replicate k "d".toList)
    hrep (fun s hs => by rw [List.eq_of_mem_replicate hs]; exact hseg) hseg
  rw [← List.replicate_succ'] at hjoin
  rw [Next, hf, nextLoop_entry m f (exLoopWalker k) _ (List.replicate k ⟨exLoopTree, 1⟩)
    ⟨exLoopTree, 0⟩ ⟨"d".toList, 0, 7⟩ rfl (by rw [List.length_replicate]; exact hk) (by decide)]
  show some (_, _) = _
  rw [hjoin]
  simp only [exLoopWalker, List.replicate_succ' k]

theorem exLoopWalker_calls (m : Nat) : ∀ (n j : Nat), j + n ≤ m + 1 →
    (calls m n (exLoopWalker j)).map (fun p => p.2) = some (exLoopWalker (j + n)) := by
  intro n
  induction n with
  | zero => intro j _; rfl
  | succ n ih =>
    intro j h
    rw [calls, exLoopWalker_next m j (by omega)]
    have := ih (j + 1) (by omega)
    rw [show j + (n + 1) = j + 1 + n by omega, ← this, Option.map_map]
    rfl

/-- Counterexample to C6 as stated: with `maxTreeDepth = 1024`, after 1024 entries of a
self-referencing tree have been yielded the stack holds 1025 frames (more than
`maxTreeDepth`), and `Next` does not fail: it yields the entry `d` once more. -/
theorem C6_counterexample :
    (calls 1024 1024 (NewTreeWalker exLoopRepo exLoopTree)).map (fun p => p.2)
      = some (exLoopWalker 1024) ∧
    (exLoopWalker 1024).stack ≠ [] ∧ 1024 < (exLoopWalker 1024).stack.length ∧
    ∃ res w1, Next 1024 (exLoopWalker 1024) = some (res, w1) ∧ res.err = none ∧
      res.entry = ⟨"d".toList, 0, 7⟩ := by
  have hlen : (exLoopWalker 1024).stack.length = 1025 := by
    simp only [exLoopWalker, List.length_append, List.length_replicate, List.length_singleton]
  refine ⟨exLoopWalker_calls 1024 1024 0 (by decide), fun hc => ?_, ?_, ?_⟩
  · rw [hc] at hlen; cases hlen
  · rw [hlen]; decide
  · exact ⟨_, _, exLoopWalker_next 1024 1024 (le_refl _), rfl, rfl⟩

theorem exLoop_deeper : ∀ d, deeperThan exLoopRepo d exLoopTree = true := by
  intro d
  induction d with
  | zero => rfl
  | succ d ih => simpa [deeperThan, exLoopTree, exLoopRepo] using ih

/-- C7: when the root tree contains a chain of subtrees nested `maxTreeDepth + 1` levels
below it, some call of `Next` returns `ErrMaxTreeDepth` (the call number `k + 1`, none
before it), and from then on every call returns `ErrMaxTreeDepth` with no entry and
leaves the walker unchanged. -/
theorem C7_depth_guard_is_reached (m : Nat) (r : Repository) (t : Tree)
    (hchain : deeperThan r (m + 1) t = true) :
    ∃ k, ∀ n, ∃ res w1, calls m (k + n) (NewTreeWalker r t) = some (res, w1) ∧
      (∀ v ∈ res.take k, v.err ≠ some .ErrMaxTreeDepth) ∧
      res.drop k = List.replicate n depthResult ∧
      Next m w1 = some (depthResult, w1) := by
  have hdeep := procStack_new_deep m r t hchain
  refine ⟨(procStack m (NewTreeWalker r t)).events.length, fun n => ?_⟩
  obtain ⟨w1, h1, _, h2⟩ := calls_spec m ((procStack m (NewTreeWalker r t)).events.length + n)
    (NewTreeWalker r t)
  have hterm : (procStack m (NewTreeWalker r t)).terminal = depthResult := by
    simp [Flow.terminal, hdeep]
  have htake : ((procStack m (NewTreeWalker r t)).events ++
      List.replicate ((procStack m (NewTreeWalker r t)).events.length + n) depthResult).take
        ((procStack m (NewTreeWalker r t)).events.length + n)
      = (procStack m (NewTreeWalker r t)).events ++ List.replicate n depthResult := by
    rw [List.take_append, List.take_replicate]
    simp
  rw [hterm, htake] at h1
  refine ⟨_, w1, h1, ?_, ?_, ?_⟩
  · rw [List.take_left]
    exact events_err_ne_depth m _
  · rw [List.drop_left]
  · apply Next_deep
    apply (procStack_stuck_iff m w1).1
    rw [h2]
    exact ⟨by simp, hdeep⟩

/-- Witness of C7: a tree that contains itself. -/
theorem C7_witness :
    deeperThan exLoopRepo (1024 + 1) exLoopTree = true ∧
    ∃ k, ∀ n, ∃ res w1, calls 1024 (k + n) (NewTreeWalker exLoopRepo exLoopTree)
        = some (res, w1) ∧
      (∀ v ∈ res.take k, v.err ≠ some .ErrMaxTreeDepth) ∧
      res.drop k = List.replicate n depthResult ∧
      Next 1024 w1 = some (depthResult, w1) :=
  ⟨exLoop_deeper _, C7_depth_guard_is_reached 1024 exLoopRepo exLoopTree (exLoop_deeper _)⟩

/-- C8: when an iteration of the loop of `Next` takes the entry `e` from the top frame
and the store fails on its hash with an error other than `ErrObjectNotFound`, `Next`
returns exactly that error; the stack keeps its frames (the top one advanced past `e`,
none pushed) and `base` is not changed. -/
theorem C8_store_failure_is_returned (m fuel : Nat) (w : TreeWalker) (v : NextResult)
    (below : List treeEntryIter) (top : treeEntryIter) (e : TreeEntry) (err : GoError)
    (hs : w.stack = below ++ [top]) (hm : below.length ≤ m)
    (he : top.t.Entries[top.pos]? = some e)
    (hr : (w.r.Object e.Hash).2 = some err) (hne : err ≠ .ErrObjectNotFound) :
    ∃ res w1, nextLoop m (fuel + 1) w v = some (res, w1) ∧ Next m w = some (res, w1) ∧
      res.err = some err ∧ res.entry = e ∧
      w1.stack = below ++ [{ top with pos := top.pos + 1 }] ∧ w1.base = w.base := by
  obtain ⟨k, hk⟩ : ∃ k, loopBound w = k + 1 := ⟨loopBound w - 1, by
    have := loopBound_pos w; omega⟩
  rw [Next, hk, nextLoop_entry m fuel w v below top e hs hm he,
    nextLoop_entry m k w _ below top e hs hm he]
  cases hres : w.r.resolve e.Hash with
  | notFound => simp [Repository.Object, hres] at hr; exact absurd hr.symm hne
  | object o => simp [Repository.Object, hres] at hr
  | otherFault c =>
    simp only [Repository.Object, hres, Option.some.injEq] at hr
    subst hr
    exact ⟨_, _, rfl, rfl, rfl, rfl, rfl, rfl⟩

/-- Witness of C8: the store fails on the hash of `sub`. -/
theorem C8_witness :
    ∃ res w1, nextLoop 1024 (0 + 1) ⟨[⟨exRoot, 1⟩], [], exFailingRepo, exRoot⟩ NextResult.zero
        = some (res, w1) ∧
      Next 1024 ⟨[⟨exRoot, 1⟩], [], exFailingRepo, exRoot⟩ = some (res, w1) ∧
      res.err = some (.other 7) ∧ res.entry = ⟨"sub".toList, 0, 2⟩ ∧
      w1.stack = [] ++ [{ (⟨exRoot, 1⟩ : treeEntryIter) with pos := 1 + 1 }] ∧ w1.base = [] :=
  C8_store_failure_is_returned 1024 0 ⟨[⟨exRoot, 1⟩], [], exFailingRepo, exRoot⟩
    NextResult.zero [] ⟨exRoot, 1⟩ ⟨"sub".toList, 0, 2⟩ (.other 7) rfl (by decide) (by decide)
    (by decide) (by decide)

/-- C9: if, along the run, the callback returns nil on its first `N - 1` invocations and
`core.ErrStop` on its `N`th (the walker yielding at least `N` entries), then `ForEach`
returns nil, the callback has been invoked exactly `N` times (with the first `N`
yields), and the walker is left in the state reached right after the `N`th yield. -/
theorem C9_stop_semantics (m : Nat) (cb : Callback) (N : Nat) (w wN : TreeWalker)
    (res : List NextResult) (hN : 1 ≤ N)
    (hcalls : calls m N w = some (res, wN)) (hyield : ∀ v ∈ res, v.err = none)
    (hnil : ∀ i v, i + 1 < N → res[i]? = some v →
      cb ((res.take i).map (fun v => (v.name, v.entry))) v.name v.entry = none)
    (hstop : ∀ v, res[N - 1]? = some v →
      cb ((res.take (N - 1)).map (fun v => (v.name, v.entry))) v.name v.entry
        = some .ErrStop)
    (fuel : Nat) (hfuel : N ≤ fuel) :
    ForEach m cb fuel w [] = some (none, wN, res.map (fun v => (v.name, v.entry))) ∧
      (res.map (fun v => (v.name, v.entry))).length = N := by
  obtain ⟨k, rfl⟩ : ∃ k, N = k + 1 := ⟨N - 1, by omega⟩
  refine ⟨?_, by simp [calls_length m _ w wN res hcalls]⟩
  have := ForEach_stop_run m cb k w wN res [] hcalls hyield
    (fun i v hi hv => by simpa using hnil i v (by omega) hv)
    (fun v hv => by simpa using hstop v (by simpa using hv)) fuel (by omega)
  simpa using this

/-- Witness of C9: a callback that stops at the path `sub`, the second entry of the
example. -/
theorem C9_witness :
    ForEach 1024 exStopAtSub 2 (NewTreeWalker exRepo exRoot) []
        = some (none, ⟨[⟨exRoot, 2⟩, ⟨exSub, 0⟩], "sub".toList, exRepo, exRoot⟩,
            [(⟨"a.txt".toList, ⟨"a.txt".toList, 0, 1⟩, some (.blob 1), none⟩ : NextResult),
             ⟨"sub".toList, ⟨"sub".toList, 0, 2⟩, some (.tree exSub), none⟩].map
              (fun v => (v.name, v.entry))) ∧
      ([(⟨"a.txt".toList, ⟨"a.txt".toList, 0, 1⟩, some (.blob 1), none⟩ : NextResult),
        ⟨"sub".toList, ⟨"sub".toList, 0, 2⟩, some (.tree exSub), none⟩].map
          (fun v => (v.name, v.entry))).length = 2 :=
  C9_stop_semantics 1024 exStopAtSub 2 (NewTreeWalker exRepo exRoot)
    ⟨[⟨exRoot, 2⟩, ⟨exSub, 0⟩], "sub".toList, exRepo, exRoot⟩
    [⟨"a.txt".toList, ⟨"a.txt".toList, 0, 1⟩, some (.blob 1), none⟩,
     ⟨"sub".toList, ⟨"sub".toList, 0, 2⟩, some (.tree exSub), none⟩]
    (by decide) rfl (by decide)
    (fun i v hi hv => by
      obtain rfl : i = 0 := by omega
      simp only [List.getElem?_cons_zero, Option.some.injEq] at hv
      subst hv
      decide)
    (fun v hv => by
      simp only [Nat.add_one_sub_one, List.getElem?_cons_succ, List.getElem?_cons_zero,
        Option.some.injEq] at hv
      subst hv
      decide)
    2 (by decide)

/-- C10: when repeated calls of `Next` yield the results `ys` and then `io.EOF`,
`ForEach` with a callback that always returns nil invokes it exactly once per result,
with the path and the entry of each result in that order, and returns nil. -/
theorem C10_forEach_is_push_form (m n : Nat) (w : TreeWalker) (ys : List NextResult)
    (hwalk : walk m n w = some (ys, .EOF)) (fuel : Nat) (hfuel : ys.length < fuel) :
    ∃ w1, ForEach m (fun _ _ _ => none) fuel w []
      = some (none, w1, ys.map (fun v => (v.name, v.entry))) := by
  simpa using ForEach_of_walk m n w ys [] hwalk fuel hfuel

/-- Witness of C10 on the example tree. -/
theorem C10_witness :
    ∃ w1, ForEach 1024 (fun _ _ _ => none) 4 (NewTreeWalker exRepo exRoot) []
      = some (none, w1,
        [(⟨"a.txt".toList, ⟨"a.txt".toList, 0, 1⟩, some (.blob 1), none⟩ : NextResult),
         ⟨"sub".toList, ⟨"sub".toList, 0, 2⟩, some (.tree exSub), none⟩,
         ⟨"sub/b.txt".toList, ⟨"b.txt".toList, 0, 3⟩, some (.blob 3), none⟩].map
          (fun v => (v.name, v.entry))) :=
  C10_forEach_is_push_form 1024 4 (NewTreeWalker exRepo exRoot) _ (by decide) 4 (by decide)

/-! ## options.go -/

theorem refSpecsLoop_eq (IsValid : config.RefSpec → Bool) : ∀ (rs : List config.RefSpec),
    refSpecsLoop IsValid rs = if rs.all IsValid then none else some .ErrInvalidRefSpec := by
  intro rs
  induction rs with
  | nil => rfl
  | cons r rs ih =>
    simp only [refSpecsLoop, List.all_cons, ih]
    by_cases hr : IsValid r = true
    · simp [hr]
    · have hf : IsValid r = false := by simpa using hr
      simp [hf]

/-- C14: `RepositoryCloneOptions.Validate` returns `ErrMissingURL` if and only if `URL`
is the empty string and returns nil otherwise; when it returns `ErrMissingURL` the
options are left unchanged. -/
theorem C14_clone_requires_url (o : RepositoryCloneOptions) :
    (o.Validate.1 = some .ErrMissingURL ↔ o.URL = []) ∧
    (o.Validate.1 = if o.URL = [] then some .ErrMissingURL else none) ∧
    (o.Validate.1 = some .ErrMissingURL → o.Validate.2 = o) := by
  unfold RepositoryCloneOptions.Validate
  by_cases h : o.URL = []
  · simp [h]
  · simp [h]

/-- Witness of C14: options without a URL are refused and left as they are. -/
theorem C14_witness :
    (RepositoryCloneOptions.Validate ⟨[], none, [], [], false, 0⟩).1 = some .ErrMissingURL ∧
    (RepositoryCloneOptions.Validate ⟨[], none, [], [], false, 0⟩).2
      = ⟨[], none, [], [], false, 0⟩ :=
  ⟨(C14_clone_requires_url ⟨[], none, [], [], false, 0⟩).1.2 rfl,
   (C14_clone_requires_url ⟨[], none, [], [], false, 0⟩).2.2 (by decide)⟩

/-- C15: `RepositoryPullOptions.Validate` always returns nil, and so does
`RepositoryCloneOptions.Validate` when `URL` is not empty; afterwards `RemoteName` is
`"origin"` if it was empty and unchanged otherwise, `ReferenceName` is `core.HEAD` if it
was empty and unchanged otherwise, and every other field is unchanged; a second
`Validate` returns nil again and changes nothing. -/
theorem C15_defaulting (p : RepositoryPullOptions) (c : RepositoryCloneOptions) :
    (p.Validate.1 = none ∧
      p.Validate.2.RemoteName = (if p.RemoteName = [] then "origin".toList else p.RemoteName) ∧
      p.Validate.2.ReferenceName
        = (if p.ReferenceName = [] then core.HEAD else p.ReferenceName) ∧
      p.Validate.2.SingleBranch = p.SingleBranch ∧ p.Validate.2.Depth = p.Depth ∧
      p.Validate.2.Validate = (none, p.Validate.2)) ∧
    (c.Validate.1 = none →
      c.Validate.2.RemoteName = (if c.RemoteName = [] then "origin".toList else c.RemoteName) ∧
      c.Validate.2.ReferenceName
        = (if c.ReferenceName = [] then core.HEAD else c.ReferenceName) ∧
      c.Validate.2.URL = c.URL ∧ c.Validate.2.Auth = c.Auth ∧
      c.Validate.2.SingleBranch = c.SingleBranch ∧ c.Validate.2.Depth = c.Depth ∧
      c.Validate.2.Validate = (none, c.Validate.2)) := by
  have horigin : DefaultRemoteName ≠ [] := by decide
  have hhead : core.HEAD ≠ [] := by decide
  constructor
  · unfold RepositoryPullOptions.Validate
    by_cases h1 : p.RemoteName = [] <;> by_cases h2 : p.ReferenceName = [] <;>
      simp [h1, h2, horigin, hhead, DefaultRemoteName]
  · intro hnil
    have hurl : c.URL ≠ [] := by
      intro hc
      simp [RepositoryCloneOptions.Validate, hc] at hnil
    unfold RepositoryCloneOptions.Validate
    by_cases h1 : c.RemoteName = [] <;> by_cases h2 : c.ReferenceName = [] <;>
      simp [h1, h2, hurl, horigin, hhead, DefaultRemoteName]

/-- Witness of C15: a clone with a URL and nothing else set gets both defaults. -/
theorem C15_witness :
    (RepositoryCloneOptions.Validate ⟨"u".toList, none, [], [], true, 3⟩).2
      = ⟨"u".toList, none, "origin".toList, "HEAD".toList, true, 3⟩ ∧
    (RepositoryCloneOptions.Validate ⟨"u".toList, none, [], [], true, 3⟩).2.Validate
      = (none, (RepositoryCloneOptions.Validate ⟨"u".toList, none, [], [], true, 3⟩).2) :=
  ⟨by decide,
   ((C15_defaulting ⟨[], [], false, 0⟩ ⟨"u".toList, none, [], [], true, 3⟩).2
      (by decide)).2.2.2.2.2.2⟩

/-- C16: `RemoteFetchOptions.Validate` returns `ErrInvalidRefSpec` if and only if some
element of `RefSpecs` fails `IsValid`, and nil otherwise (so for an empty list); it
never modifies the options. -/
theorem C16_fetch_refspecs (IsValid : config.RefSpec → Bool) (o : RemoteFetchOptions) :
    ((o.Validate IsValid).1 = some .ErrInvalidRefSpec ↔ ∃ r ∈ o.RefSpecs, IsValid r = false) ∧
    ((o.Validate IsValid).1
      = if o.RefSpecs.all IsValid then none else some .ErrInvalidRefSpec) ∧
    (RemoteFetchOptions.Validate IsValid ⟨[], o.Depth⟩).1 = none ∧
    (o.Validate IsValid).2 = o := by
  refine ⟨?_, ?_, rfl, rfl⟩
  · simp only [RemoteFetchOptions.Validate, refSpecsLoop_eq]
    by_cases h : o.RefSpecs.all IsValid = true
    · simp only [h, if_true]
      simp only [List.all_eq_true] at h
      constructor
      · intro hc; cases hc
      · rintro ⟨r, hr, hf⟩
        rw [h r hr] at hf; cases hf
    · have h2 : o.RefSpecs.all IsValid = false := by simpa using h
      rw [h2]
      simp only [List.all_eq_true, not_forall] at h
      obtain ⟨r, hr, hf⟩ := h
      exact ⟨fun _ => ⟨r, hr, by simpa using hf⟩, fun _ => by simp⟩
  · simp only [RemoteFetchOptions.Validate, refSpecsLoop_eq]

/-- Witness of C16: with "contains a colon" as the shape check, a list holding `bad` is
refused. -/
theorem C16_witness :
    (RemoteFetchOptions.Validate (fun s => decide (':' ∈ s))
      ⟨["a:b".toList, "bad".toList], 1⟩).1 = some .ErrInvalidRefSpec :=
  (C16_fetch_refspecs (fun s => decide (':' ∈ s)) ⟨["a:b".toList, "bad".toList], 1⟩).1.2
    ⟨"bad".toList, by decide, by decide⟩

/-! ## Reasoning about one call of `Next` -/

/-- Case analysis along the loop of `Next`: a property of (walker, named results, outcome)
that holds at each of the returning iterations and is carried back over the two
iterations that continue (pop a frame, skip an unresolved entry) holds of every call. -/
theorem nextLoop_cases (m : Nat)
    (P : TreeWalker → NextResult → NextResult × TreeWalker → Prop)
    (hnil : ∀ w v, w.stack = [] → P w v ({ v with err := some .EOF }, w))
    (hdeep : ∀ w v, m + 1 < w.stack.length →
      P w v ({ v with err := some .ErrMaxTreeDepth }, w))
    (hpop : ∀ w v below top out, w.stack = below ++ [top] → below.length ≤ m →
      top.t.Entries.length ≤ top.pos →
      P { w with stack := below, base := ascend w.base }
        { v with entry := TreeEntry.zero, err := some .EOF } out → P w v out)
    (hskip : ∀ w v below top e out, w.stack = below ++ [top] → below.length ≤ m →
      top.t.Entries[top.pos]? = some e → w.r.resolve e.Hash = .notFound →
      P (advanceTop w below top) { v with entry := e, obj := none, err := none } out →
      P w v out)
    (hfault : ∀ w v below top e c, w.stack = below ++ [top] → below.length ≤ m →
      top.t.Entries[top.pos]? = some e → w.r.resolve e.Hash = .otherFault c →
      P w v (⟨path.Join [w.base, e.Name], e, none, some (.other c)⟩, advanceTop w below top))
    (htree : ∀ w v below top e s, w.stack = below ++ [top] → below.length ≤ m →
      top.t.Entries[top.pos]? = some e → w.r.resolve e.Hash = .object (.tree s) →
      P w v (⟨path.Join [w.base, e.Name], e, some (.tree s), none⟩,
        { w with stack := below ++ [{ top with pos := top.pos + 1 }] ++ [⟨s, 0⟩],
                 base := path.Join [w.base, e.Name] }))
    (hleaf : ∀ w v below top e o, w.stack = below ++ [top] → below.length ≤ m →
      top.t.Entries[top.pos]? = some e → w.r.resolve e.Hash = .object o →
      (∀ s, o ≠ .tree s) →
      P w v (⟨path.Join [w.base, e.Name], e, some o, none⟩, advanceTop w below top)) :
    ∀ (fuel : Nat) (w : TreeWalker) (v : NextResult) (out : NextResult × TreeWalker),
      nextLoop m fuel w v = some out → P w v out := by
  intro fuel
  induction fuel with
  | zero => intro w v out h; simp [nextLoop] at h
  | succ fuel ih =>
    intro w v out h
    rcases List.eq_nil_or_concat w.stack with hs | ⟨below, top, hs⟩
    · rw [nextLoop_nil m fuel w v hs] at h
      cases h
      exact hnil w v hs
    · rw [List.concat_eq_append] at hs
      by_cases hm : below.length ≤ m
      · by_cases hp : top.t.Entries.length ≤ top.pos
        · rw [nextLoop_pop m fuel w v below top hs hm hp] at h
          exact hpop w v below top out hs hm hp (ih _ _ _ h)
        · have hlt : top.pos < top.t.Entries.length := by omega
          have he : top.t.Entries[top.pos]? = some top.t.Entries[top.pos] :=
            List.getElem?_eq_getElem hlt
          rw [nextLoop_entry m fuel w v below top _ hs hm he] at h
          cases hr : w.r.resolve top.t.Entries[top.pos].Hash with
          | notFound =>
            simp only [hr] at h
            exact hskip w v below top _ out hs hm he hr (ih _ _ _ h)
          | otherFault c =>
            simp only [hr] at h
            cases h
            exact hfault w v below top _ c hs hm he hr
          | object o =>
            cases o with
            | tree s =>
              simp only [hr] at h
              cases h
              exact htree w v below top _ s hs hm he hr
            | blob x =>
              simp only [hr] at h
              cases h
              exact hleaf w v below top _ _ hs hm he hr (fun s hc => by cases hc)
            | commit x =>
              simp only [hr] at h
              cases h
              exact hleaf w v below top _ _ hs hm he hr (fun s hc => by cases hc)
            | tag x =>
              simp only [hr] at h
              cases h
              exact hleaf w v below top _ _ hs hm he hr (fun s hc => by cases hc)
      · have hd : m + 1 < w.stack.length := by rw [hs]; simp; omega
        rw [nextLoop_deep m fuel w v hd] at h
        cases h
        exact hdeep w v hd

/-- With `loopBound w` iterations allowed the loop returns, whatever the named results
hold on entry, and allowing more iterations gives the same result. -/
theorem nextLoop_total (m : Nat) : ∀ (fuel : Nat) (w : TreeWalker) (v : NextResult),
    loopBound w ≤ fuel →
    ∃ out, nextLoop m fuel w v = some out ∧
      ∀ more, nextLoop m (fuel + more) w v = some out := by
  intro fuel
  induction fuel with
  | zero => intro w v h; have := loopBound_pos w; omega
  | succ fuel ih =>
    intro w v hb
    rcases List.eq_nil_or_concat w.stack with hs | ⟨below, top, hs⟩
    · refine ⟨_, nextLoop_nil m fuel w v hs, fun more => ?_⟩
      rw [show fuel + 1 + more = (fuel + more) + 1 by omega, nextLoop_nil m _ w v hs]
    · rw [List.concat_eq_append] at hs
      by_cases hm : below.length ≤ m
      · by_cases hp : top.t.Entries.length ≤ top.pos
        · have hb2 : loopBound { w with stack := below, base := ascend w.base } ≤ fuel := by
            rw [loopBound_snoc w below top hs] at hb
            simp only [loopBound]; omega
          obtain ⟨out, h1, h2⟩ := ih { w with stack := below, base := ascend w.base }
            { v with entry := TreeEntry.zero, err := some .EOF } hb2
          refine ⟨out, by rw [nextLoop_pop m fuel w v below top hs hm hp, h1], fun more => ?_⟩
          rw [show fuel + 1 + more = (fuel + more) + 1 by omega,
            nextLoop_pop m _ w v below top hs hm hp, h2]
        · have hlt : top.pos < top.t.Entries.length := by omega
          have he : top.t.Entries[top.pos]? = some top.t.Entries[top.pos] :=
            List.getElem?_eq_getElem hlt
          have hb2 : loopBound (advanceTop w below top) ≤ fuel := by
            rw [loopBound_snoc w below top hs] at hb
            rw [loopBound_snoc (advanceTop w below top) below _ rfl]
            simp only []; omega
          obtain ⟨out, h1, h2⟩ := ih (advanceTop w below top)
            { v with entry := top.t.Entries[top.pos], obj := none, err := none } hb2
          cases hr : w.r.resolve top.t.Entries[top.pos].Hash with
          | notFound =>
            refine ⟨out, ?_, fun more => ?_⟩
            · rw [nextLoop_entry m fuel w v below top _ hs hm he]
              simp only [hr]; exact h1
            · rw [show fuel + 1 + more = (fuel + more) + 1 by omega,
                nextLoop_entry m _ w v below top _ hs hm he]
              simp only [hr]; exact h2 more
          | otherFault c =>
            have e1 := nextLoop_entry m fuel w v below top _ hs hm he
            have e2 := fun more => nextLoop_entry m (fuel + more) w v below top _ hs hm he
            simp only [hr] at e1 e2
            exact ⟨_, e1, fun more => by
              rw [show fuel + 1 + more = (fuel + more) + 1 by omega]; exact e2 more⟩
          | object o =>
            have e1 := nextLoop_entry m fuel w v below top _ hs hm he
            have e2 := fun more => nextLoop_entry m (fuel + more) w v below top _ hs hm he
            cases o <;>
            · simp only [hr] at e1 e2
              exact ⟨_, e1, fun more => by
                rw [show fuel + 1 + more = (fuel + more) + 1 by omega]; exact e2 more⟩
      · have hd : m + 1 < w.stack.length := by rw [hs]; simp; omega
        refine ⟨_, nextLoop_deep m fuel w v hd, fun more => ?_⟩
        rw [show fuel + 1 + more = (fuel + more) + 1 by omega, nextLoop_deep m _ w v hd]

theorem Tree_snoc (w : TreeWalker) (below : List treeEntryIter) (top : treeEntryIter)
    (hs : w.stack = below ++ [top]) : w.Tree = some top.t := by
  have h1 : ¬ ((w.stack.length : Int) - 1 < 0) := by rw [hs]; simp
  have h3 : ((w.stack.length : Int) - 1).toNat = below.length := by rw [hs]; simp
  have h4 : w.stack[below.length]? = some top := by rw [hs]; simp
  simp only [TreeWalker.Tree, h1, if_false, h3, h4, Option.map_some']

theorem Tree_nil (w : TreeWalker) (hs : w.stack = []) : w.Tree = none := by
  simp [TreeWalker.Tree, hs]

/-- After a call that yields, the top frame is the subtree just entered, or the frame the
entry was taken from. -/
theorem Next_yield_tree (m : Nat) (w w1 : TreeWalker) (res : NextResult)
    (h : Next m w = some (res, w1)) (he : res.err = none) :
    (∀ s, res.obj = some (.tree s) → w1.Tree = some s) ∧
    ((∀ s, res.obj ≠ some (.tree s)) → ∃ T, w1.Tree = some T ∧ res.entry ∈ T.Entries) := by
  refine nextLoop_cases m
    (fun _ _ out => out.1.err = none →
      (∀ s, out.1.obj = some (.tree s) → out.2.Tree = some s) ∧
      ((∀ s, out.1.obj ≠ some (.tree s)) →
        ∃ T, out.2.Tree = some T ∧ out.1.entry ∈ T.Entries))
    ?_ ?_ ?_ ?_ ?_ ?_ ?_ _ w NextResult.zero (res, w1) h he
  · intro w v _ hc; cases hc
  · intro w v _ hc; cases hc
  · intro w v below top out _ _ _ ih; exact ih
  · intro w v below top e out _ _ _ _ ih; exact ih
  · intro w v below top e c _ _ _ _ hc; cases hc
  · intro w v below top e s _ _ _ _ _
    refine ⟨fun s1 hs1 => ?_, fun hn => absurd rfl (hn s)⟩
    simp only [Option.some.injEq, Object.tree.injEq] at hs1
    subst hs1
    exact Tree_snoc _ (below ++ [{ top with pos := top.pos + 1 }]) ⟨s, 0⟩ rfl
  · intro w v below top e o _ _ hent _ hno _
    refine ⟨fun s hs => absurd (Option.some.inj hs) (hno s), fun _ => ?_⟩
    exact ⟨top.t, Tree_snoc _ below { top with pos := top.pos + 1 } rfl,
      List.getElem?_mem hent⟩

/-- One call of `Next` keeps the stack within `maxTreeDepth + 2` frames. -/
theorem Next_stack_le (m : Nat) (w w1 : TreeWalker) (res : NextResult)
    (h : Next m w = some (res, w1)) (hl : w.stack.length ≤ m + 2) :
    w1.stack.length ≤ m + 2 := by
  refine nextLoop_cases m (fun w _ out => w.stack.length ≤ m + 2 → out.2.stack.length ≤ m + 2)
    ?_ ?_ ?_ ?_ ?_ ?_ ?_ _ w NextResult.zero (res, w1) h hl
  · intro w v _ hl; exact hl
  · intro w v _ hl; exact hl
  · intro w v below top out _ hm _ ih _; exact ih (by simp only []; omega)
  · intro w v below top e out _ hm _ _ ih _
    exact ih (by simp only [advanceTop, List.length_append, List.length_singleton]; omega)
  · intro w v below top e c _ hm _ _ _
    simp only [advanceTop, List.length_append, List.length_singleton]; omega
  · intro w v below top e s _ hm _ _ _
    simp only [List.length_append, List.length_singleton]; omega
  · intro w v below top e o _ hm _ _ _ _
    simp only [advanceTop, List.length_append, List.length_singleton]; omega

theorem calls_stack_le (m : Nat) : ∀ (n : Nat) (w : TreeWalker), w.stack.length ≤ m + 2 →
    ∃ res w1, calls m n w = some (res, w1) ∧ w1.stack.length ≤ m + 2 := by
  intro n
  induction n with
  | zero => intro w h; exact ⟨[], w, rfl, h⟩
  | succ n ih =>
    intro w h
    obtain ⟨r1, w1, hN⟩ := Next_total m w
    obtain ⟨res, w2, hc, hl⟩ := ih w1 (Next_stack_le m w w1 r1 hN h)
    exact ⟨r1 :: res, w2, by simp [calls, hN, hc], hl⟩

/-- C12: `Tree()` is the tree of the top stack frame, and nil when the stack is empty:
right after `NewTreeWalker` it is the root tree; right after a call of `Next` that
yields an entry whose object is a tree it is that tree; right after a call that yields
any other entry it is a tree whose entry list contains the yielded entry; after `Next`
has returned `io.EOF`, and after `Close`, it is nil. -/
theorem C12_tree_accessor (m : Nat) (r : Repository) (t : Tree) (w w1 : TreeWalker)
    (res : NextResult) (h : Next m w = some (res, w1)) :
    (w.stack = [] → w.Tree = none) ∧
    (∀ below top, w.stack = below ++ [top] → w.Tree = some top.t) ∧
    (NewTreeWalker r t).Tree = some t ∧
    (res.err = none → ∀ s, res.obj = some (.tree s) → w1.Tree = some s) ∧
    (res.err = none → (∀ s, res.obj ≠ some (.tree s)) →
      ∃ T, w1.Tree = some T ∧ res.entry ∈ T.Entries) ∧
    (res.err = some .EOF → w1.Tree = none) ∧
    w.Close.Tree = none := by
  refine ⟨Tree_nil w, fun below top hs => Tree_snoc w below top hs, rfl,
    fun he => (Next_yield_tree m w w1 res h he).1,
    fun he => (Next_yield_tree m w w1 res h he).2, fun he => ?_, rfl⟩
  obtain ⟨w2, h2, _, _, _, h3⟩ := Next_spec m w
  rw [h] at h2
  simp only [Option.some.injEq, Prod.mk.injEq] at h2
  obtain ⟨rfl, rfl⟩ := h2
  apply Tree_nil
  rcases headD_err_cases m w with ⟨_, ⟨h1, _⟩ | ⟨c, h1, _⟩⟩ | ⟨h4, h5, _⟩ | ⟨_, _, h1⟩
  · rw [h1] at he; cases he
  · rw [h1] at he; cases he
  · exact h3 h4 h5
  · rw [h1] at he; cases he

/-- Witness of C12: the first call on the example yields the blob `a.txt`, taken from the
root tree. -/
theorem C12_witness :
    ((NewTreeWalker exRepo exRoot).stack = [] → (NewTreeWalker exRepo exRoot).Tree = none) ∧
    (∀ below top, (NewTreeWalker exRepo exRoot).stack = below ++ [top] →
      (NewTreeWalker exRepo exRoot).Tree = some top.t) ∧
    (NewTreeWalker exRepo exRoot).Tree = some exRoot ∧
    ((none : Option GoError) = none → ∀ s, some (Object.blob 1) = some (.tree s) →
      (⟨[⟨exRoot, 1⟩], [], exRepo, exRoot⟩ : TreeWalker).Tree = some s) ∧
    ((none : Option GoError) = none → (∀ s, some (Object.blob 1) ≠ some (.tree s)) →
      ∃ T, (⟨[⟨exRoot, 1⟩], [], exRepo, exRoot⟩ : TreeWalker).Tree = some T ∧
        (⟨"a.txt".toList, 0, 1⟩ : TreeEntry) ∈ T.Entries) ∧
    ((none : Option GoError) = some .EOF →
      (⟨[⟨exRoot, 1⟩], [], exRepo, exRoot⟩ : TreeWalker).Tree = none) ∧
    (NewTreeWalker exRepo exRoot).Close.Tree = none :=
  C12_tree_accessor 1024 exRepo exRoot (NewTreeWalker exRepo exRoot)
    ⟨[⟨exRoot, 1⟩], [], exRepo, exRoot⟩
    ⟨"a.txt".toList, ⟨"a.txt".toList, 0, 1⟩, some (.blob 1), none⟩ rfl

/-- C13: `Close` is idempotent and terminal: a second `Close` changes nothing; after
`Close` the stack is empty, `Next` returns `io.EOF` and `Tree` returns nil; `Close`
leaves `base`, the store and the root tree untouched. -/
theorem C13_close (m : Nat) (w : TreeWalker) :
    w.Close.Close = w.Close ∧ w.Close.stack = [] ∧
    Next m w.Close = some (eofResult, w.Close) ∧ w.Close.Tree = none ∧
    w.Close.base = w.base ∧ w.Close.r = w.r ∧ w.Close.t = w.t :=
  ⟨rfl, rfl, Next_nil m w.Close rfl, rfl, rfl, rfl, rfl⟩

/-- C18: in every walker state reached from `NewTreeWalker` by calls of `Next`, against
any store, the stack holds at most `maxTreeDepth + 2` frames, and when it holds that
many `Next` returns `ErrMaxTreeDepth` and leaves the walker as it is. -/
theorem C18_stack_bound (m : Nat) (r : Repository) (t : Tree) (n : Nat) :
    ∃ res w, calls m n (NewTreeWalker r t) = some (res, w) ∧
      w.stack.length ≤ m + 2 ∧
      (w.stack.length = m + 2 → Next m w = some (depthResult, w)) := by
  obtain ⟨res, w, hc, hl⟩ := calls_stack_le m n (NewTreeWalker r t)
    (by simp [NewTreeWalker])
  exact ⟨res, w, hc, hl, fun he => Next_deep m w (by omega)⟩

/-- C19: every call of `Next` terminates, for every walker state and store: with as many
iterations as there are frames plus entries not yet consumed plus one, the loop returns
(so `w.stack[current]` was in range each time), and more iterations change nothing; an
iteration that does not return pops a frame or consumes an entry of the top frame, and
either lowers that count. -/
theorem C19_next_terminates (m : Nat) (w : TreeWalker) (v : NextResult) :
    (∃ out, nextLoop m
        (w.stack.length + (w.stack.map (fun f => f.t.Entries.length - f.pos)).sum + 1) w v
          = some out ∧
      ∀ more, nextLoop m (loopBound w + more) w v = some out) ∧
    (∃ res w1, Next m w = some (res, w1)) ∧
    (∀ fuel below top, w.stack = below ++ [top] → below.length ≤ m →
      top.t.Entries.length ≤ top.pos →
      nextLoop m (fuel + 1) w v
        = nextLoop m fuel { w with stack := below, base := ascend w.base }
            { v with entry := TreeEntry.zero, err := some .EOF } ∧
      loopBound { w with stack := below, base := ascend w.base } < loopBound w) ∧
    (∀ fuel below top e, w.stack = below ++ [top] → below.length ≤ m →
      top.t.Entries[top.pos]? = some e → w.r.resolve e.Hash = .notFound →
      nextLoop m (fuel + 1) w v
        = nextLoop m fuel (advanceTop w below top)
            { v with entry := e, obj := none, err := none } ∧
      loopBound (advanceTop w below top) < loopBound w) := by
  refine ⟨?_, Next_total m w, ?_, ?_⟩
  · obtain ⟨out, h1, h2⟩ := nextLoop_total m (loopBound w) w v (le_refl _)
    exact ⟨out, h1, h2⟩
  · intro fuel below top hs hm hp
    refine ⟨nextLoop_pop m fuel w v below top hs hm hp, ?_⟩
    rw [loopBound_snoc w below top hs]
    simp only [loopBound]; omega
  · intro fuel below top e hs hm he hr
    have hlt : top.pos < top.t.Entries.length := by
      rcases List.getElem?_eq_some_iff.1 he with ⟨h, _⟩; exact h
    refine ⟨?_, ?_⟩
    · rw [nextLoop_entry m fuel w v below top e hs hm he]
      simp only [hr]
    · rw [loopBound_snoc w below top hs, loopBound_snoc (advanceTop w below top) below _ rfl]
      simp only []; omega

/-! ## `ForEach`: errors and termination -/

theorem Next_err_cases (m : Nat) (w w1 : TreeWalker) (res : NextResult)
    (h : Next m w = some (res, w1)) :
    res.err = none ∨ res.err = some .EOF ∨ res.err = some .ErrMaxTreeDepth ∨
      ∃ c, res.err = some (.other c) := by
  obtain ⟨w2, h2, _⟩ := Next_spec m w
  rw [h] at h2
  simp only [Option.some.injEq, Prod.mk.injEq] at h2
  obtain ⟨rfl, rfl⟩ := h2
  rcases headD_err_cases m w with ⟨_, ⟨h1, _⟩ | ⟨c, h1, _⟩⟩ | ⟨_, _, h1⟩ | ⟨_, _, h1⟩
  · exact Or.inl h1
  · exact Or.inr (Or.inr (Or.inr ⟨c, h1⟩))
  · rw [h1]; exact Or.inr (Or.inl rfl)
  · rw [h1]; exact Or.inr (Or.inr (Or.inl rfl))

theorem ForEach_next_error (m : Nat) (cb : Callback) (fuel : Nat) (w w1 : TreeWalker)
    (log : List (GoString × TreeEntry)) (res : NextResult) (e : GoError)
    (h : Next m w = some (res, w1)) (he : res.err = some e) (hne : e ≠ .EOF) :
    ForEach m cb (fuel + 1) w log = some (some e, w1, log) := by
  simp [ForEach, h, he, hne]

theorem ForEach_callback_error (m : Nat) (cb : Callback) (fuel : Nat) (w w1 : TreeWalker)
    (log : List (GoString × TreeEntry)) (res : NextResult) (e : GoError)
    (h : Next m w = some (res, w1)) (he : res.err = none)
    (hcb : cb log res.name res.entry = some e) (hne : e ≠ .ErrStop) :
    ForEach m cb (fuel + 1) w log = some (some e, w1, log ++ [(res.name, res.entry)]) := by
  simp [ForEach, h, he, hcb, hne]

/-- Where an error returned by `ForEach` comes from: the last call of `Next`, or the
callback invoked with what that call yielded. -/
theorem ForEach_error_origin (m : Nat) (cb : Callback) : ∀ (fuel : Nat) (w : TreeWalker)
    (log : List (GoString × TreeEntry)) (e : GoError) (wf : TreeWalker)
    (logf : List (GoString × TreeEntry)),
    ForEach m cb fuel w log = some (some e, wf, logf) →
    ∃ w0 res0 hist, Next m w0 = some (res0, wf) ∧
      ((res0.err = some e ∧ e ≠ .EOF ∧ logf = hist) ∨
       (res0.err = none ∧ cb hist res0.name res0.entry = some e ∧ e ≠ .ErrStop ∧
          logf = hist ++ [(res0.name, res0.entry)])) := by
  intro fuel
  induction fuel with
  | zero => intro w log e wf logf h; simp [ForEach] at h
  | succ fuel ih =>
    intro w log e wf logf h
    obtain ⟨res, w1, hN⟩ := Next_total m w
    simp only [ForEach, hN] at h
    cases he : res.err with
    | some e1 =>
      simp only [he, ne_eq, not_false_eq_true, if_true, reduceCtorEq] at h
      by_cases heof : e1 = .EOF
      · subst heof
        simp at h
      · simp only [Option.some.injEq, heof, if_false, Prod.mk.injEq] at h
        obtain ⟨rfl, rfl, rfl⟩ := h
        exact ⟨w, res, log, hN, Or.inl ⟨he, heof, rfl⟩⟩
    | none =>
      simp only [he, ne_eq, not_true_eq_false, if_false] at h
      cases hcb : cb log res.name res.entry with
      | some e2 =>
        simp only [hcb, reduceCtorEq, not_false_eq_true, if_true] at h
        by_cases hstop : e2 = .ErrStop
        · subst hstop
          simp at h
        · simp only [Option.some.injEq, hstop, if_false, Prod.mk.injEq] at h
          obtain ⟨rfl, rfl, rfl⟩ := h
          exact ⟨w, res, log, hN, Or.inr ⟨he, hcb, hstop, rfl⟩⟩
      | none =>
        simp only [hcb, not_true_eq_false, if_false] at h
        exact ih _ _ _ _ _ h

theorem ForEach_next_eof (m : Nat) (cb : Callback) (fuel : Nat) (w w1 : TreeWalker)
    (log : List (GoString × TreeEntry)) (res : NextResult)
    (h : Next m w = some (res, w1)) (he : res.err = some .EOF) :
    ForEach m cb (fuel + 1) w log = some (none, w1, log) := by
  simp [ForEach, h, he]

theorem ForEach_callback_stop (m : Nat) (cb : Callback) (fuel : Nat) (w w1 : TreeWalker)
    (log : List (GoString × TreeEntry)) (res : NextResult)
    (h : Next m w = some (res, w1)) (he : res.err = none)
    (hcb : cb log res.name res.entry = some .ErrStop) :
    ForEach m cb (fuel + 1) w log = some (none, w1, log ++ [(res.name, res.entry)]) := by
  simp [ForEach, h, he, hcb]

theorem ForEach_continue (m : Nat) (cb : Callback) (fuel : Nat) (w w1 : TreeWalker)
    (log : List (GoString × TreeEntry)) (res : NextResult)
    (h : Next m w = some (res, w1)) (he : res.err = none)
    (hcb : cb log res.name res.entry = none) :
    ForEach m cb (fuel + 1) w log = ForEach m cb fuel w1 (log ++ [(res.name, res.entry)]) := by
  simp [ForEach, h, he, hcb]

/-- `ForEach` returns once the events of the walker are used up, if not before. -/
theorem ForEach_terminates (m : Nat) (cb : Callback) : ∀ (k : Nat) (w : TreeWalker)
    (log : List (GoString × TreeEntry)), (procStack m w).events.length ≤ k →
    ∃ out, ∀ more, ForEach m cb (k + 1 + more) w log = some out := by
  intro k
  induction k with
  | zero =>
    intro w log hk
    obtain ⟨w1, h1, _⟩ := Next_spec m w
    have hev : (procStack m w).events = [] := List.length_eq_zero.1 (by omega)
    rw [hev] at h1
    have hterm : ∃ e, (procStack m w).terminal.err = some e := by
      unfold Flow.terminal; split_ifs
      · exact ⟨_, rfl⟩
      · exact ⟨_, rfl⟩
    obtain ⟨e, he⟩ := hterm
    by_cases heof : e = .EOF
    · subst heof
      exact ⟨_, fun more => by
        rw [show 0 + 1 + more = more + 1 by omega]
        exact ForEach_next_eof m cb more w w1 log _ h1 he⟩
    · exact ⟨_, fun more => by
        rw [show 0 + 1 + more = more + 1 by omega]
        exact ForEach_next_error m cb more w w1 log _ e h1 he heof⟩
  | succ k ih =>
    intro w log hk
    obtain ⟨w1, h1, h2, _⟩ := Next_spec m w
    have hlen : (procStack m w1).events.length ≤ k := by
      rw [h2]; simp only [List.length_tail]; omega
    generalize (procStack m w).events.headD (procStack m w).terminal = res at h1
    have hfuel : ∀ more, k + 1 + 1 + more = (k + 1 + more) + 1 := fun more => by omega
    cases he : res.err with
    | some e =>
      by_cases heof : e = .EOF
      · subst heof
        exact ⟨_, fun more => by
          rw [hfuel]; exact ForEach_next_eof m cb _ w w1 log _ h1 he⟩
      · exact ⟨_, fun more => by
          rw [hfuel]; exact ForEach_next_error m cb _ w w1 log _ e h1 he heof⟩
    | none =>
      cases hcb : cb log res.name res.entry with
      | some e2 =>
        by_cases hstop : e2 = .ErrStop
        · subst hstop
          exact ⟨_, fun more => by
            rw [hfuel]; exact ForEach_callback_stop m cb _ w w1 log _ h1 he hcb⟩
        · exact ⟨_, fun more => by
            rw [hfuel]; exact ForEach_callback_error m cb _ w w1 log _ e2 h1 he hcb hstop⟩
      | none =>
        obtain ⟨out, hout⟩ := ih w1 (log ++ [(res.name, res.entry)]) hlen
        exact ⟨out, fun more => by
          rw [hfuel, ForEach_continue m cb _ w w1 log _ h1 he hcb]; exact hout more⟩

/-! ## The invariant of `base` -/

theorem enteredNames_snoc (below : List treeEntryIter) (top : treeEntryIter) :
    enteredNames (below ++ [top])
      = below.map (fun f => (f.t.Entries.getD (f.pos - 1) TreeEntry.zero).Name) := by
  simp [enteredNames, List.dropLast_concat]

theorem ascend_root (base : GoString) (h : Represents base []) : ascend base = ['.'] := by
  rcases h with ⟨_, rfl | rfl⟩ | ⟨h, _⟩
  · rfl
  · rfl
  · exact absurd rfl h

theorem BaseInvariant.advance {w : TreeWalker} {below : List treeEntryIter}
    {top : treeEntryIter} (h : BaseInvariant w) (hs : w.stack = below ++ [top]) :
    BaseInvariant (advanceTop w below top) := by
  obtain ⟨h1, h2, h3⟩ := h
  rw [hs] at h1 h2 h3
  refine ⟨?_, ?_, ?_⟩
  · simpa only [advanceTop, enteredNames_snoc] using h1
  · simpa only [advanceTop, List.dropLast_concat] using h2
  · intro f hf
    simp only [advanceTop, List.mem_append, List.mem_singleton] at hf
    rcases hf with hf | rfl
    · exact h3 f (List.mem_append_left _ hf)
    · exact h3 top (by simp)

theorem BaseInvariant.pop {w : TreeWalker} {below : List treeEntryIter}
    {top : treeEntryIter} (h : BaseInvariant w) (hs : w.stack = below ++ [top]) :
    BaseInvariant { w with stack := below, base := ascend w.base } := by
  obtain ⟨h1, h2, h3⟩ := h
  rw [hs] at h1 h2 h3
  rw [enteredNames_snoc] at h1
  rw [List.dropLast_concat] at h2
  have h3b : ∀ f ∈ below, ∀ e ∈ f.t.Entries, isSegment e.Name :=
    fun f hf => h3 f (List.mem_append_left _ hf)
  rcases List.eq_nil_or_concat below with hb | ⟨bb, f, hb⟩
  · subst hb
    refine ⟨Or.inl ⟨rfl, Or.inr (ascend_root _ h1)⟩, by simp, by simp⟩
  · rw [List.concat_eq_append] at hb
    subst hb
    have hf := h2 f (by simp)
    have hmem : (f.t.Entries.getD (f.pos - 1) TreeEntry.zero) ∈ f.t.Entries := by
      have hlt : f.pos - 1 < f.t.Entries.length := by omega
      rw [List.getD_eq_getElem _ _ hlt]
      exact List.getElem_mem _
    have hn := h3b f (by simp) _ hmem
    have hρ : ∀ x ∈ bb.map (fun f => (f.t.Entries.getD (f.pos - 1) TreeEntry.zero).Name),
        isSegment x := by
      intro x hx
      obtain ⟨g, hg, rfl⟩ := List.mem_map.1 hx
      have hgp := h2 g (by simp [hg])
      have hlt : g.pos - 1 < g.t.Entries.length := by omega
      refine h3b g (by simp [hg]) _ ?_
      rw [List.getD_eq_getElem _ _ hlt]
      exact List.getElem_mem _
    simp only [List.map_append, List.map_cons, List.map_nil] at h1
    have hbase := represents_snoc _ _ _ h1
    refine ⟨?_, ?_, h3b⟩
    · simp only [enteredNames_snoc]
      rw [hbase]
      exact ascend_represents _ _ hρ hn
    · intro g hg
      exact h2 g (by
        simp only [List.dropLast_concat] at hg
        simp [hg])

theorem BaseInvariant.push {w : TreeWalker} {below : List treeEntryIter}
    {top : treeEntryIter} {e : TreeEntry} {s : Tree} (h : BaseInvariant w)
    (hs : w.stack = below ++ [top]) (he : top.t.Entries[top.pos]? = some e)
    (hseg : ∀ x ∈ s.Entries, isSegment x.Name) :
    BaseInvariant { w with stack := below ++ [{ top with pos := top.pos + 1 }] ++ [⟨s, 0⟩],
                           base := path.Join [w.base, e.Name] } := by
  obtain ⟨h1, h2, h3⟩ := h
  rw [hs] at h1 h2 h3
  rw [enteredNames_snoc] at h1
  rw [List.dropLast_concat] at h2
  have hlt : top.pos < top.t.Entries.length := by
    rcases List.getElem?_eq_some_iff.1 he with ⟨h, _⟩; exact h
  have hen : isSegment e.Name := h3 top (by simp) e (List.getElem?_mem he)
  have hρ : ∀ x ∈ below.map (fun f => (f.t.Entries.getD (f.pos - 1) TreeEntry.zero).Name),
      isSegment x := by
    intro x hx
    obtain ⟨g, hg, rfl⟩ := List.mem_map.1 hx
    have hgp := h2 g hg
    have hlt : g.pos - 1 < g.t.Entries.length := by omega
    refine h3 g (List.mem_append_left _ hg) _ ?_
    rw [List.getD_eq_getElem _ _ hlt]
    exact List.getElem_mem _
  refine ⟨?_, ?_, ?_⟩
  · simp only [enteredNames_snoc, List.map_append, List.map_cons, List.map_nil,
      Nat.add_sub_cancel]
    have hd : top.t.Entries.getD top.pos TreeEntry.zero = e := by simp [List.getD, he]
    rw [hd]
    exact Or.inr ⟨by simp, Join_represents _ _ _ h1 hρ hen⟩
  · intro g hg
    simp only [List.dropLast_concat, List.mem_append, List.mem_singleton] at hg
    rcases hg with hg | rfl
    · exact h2 g hg
    · exact ⟨by simp, by simp only []; omega⟩
  · intro g hg
    simp only [List.mem_append, List.mem_singleton] at hg
    rcases hg with (hg | rfl) | rfl
    · exact h3 g (List.mem_append_left _ hg)
    · exact h3 top (by simp)
    · exact hseg

/-- One call of `Next` keeps the invariant of `base`. -/
theorem Next_baseInvariant (m : Nat) (w w1 : TreeWalker) (res : NextResult)
    (hnames : ∀ h s, w.r.resolve h = .object (.tree s) → ∀ e ∈ s.Entries, isSegment e.Name)
    (h : Next m w = some (res, w1)) (hinv : BaseInvariant w) :
    BaseInvariant w1 ∧ w1.r = w.r := by
  refine nextLoop_cases m
    (fun w _ out => (∀ h s, w.r.resolve h = .object (.tree s) →
        ∀ e ∈ s.Entries, isSegment e.Name) → BaseInvariant w →
      BaseInvariant out.2 ∧ out.2.r = w.r)
    ?_ ?_ ?_ ?_ ?_ ?_ ?_ _ w NextResult.zero (res, w1) h hnames hinv
  · intro w v _ _ hi; exact ⟨hi, rfl⟩
  · intro w v _ _ hi; exact ⟨hi, rfl⟩
  · intro w v below top out hs _ _ ih hn hi; exact ih hn (hi.pop hs)
  · intro w v below top e out hs _ _ _ ih hn hi; exact ih hn (hi.advance hs)
  · intro w v below top e c hs _ _ _ _ hi; exact ⟨hi.advance hs, rfl⟩
  · intro w v below top e s hs _ he hr hn hi; exact ⟨hi.push hs he (hn _ s hr), rfl⟩
  · intro w v below top e o hs _ _ _ _ _ hi; exact ⟨hi.advance hs, rfl⟩

theorem BaseInvariant.entered_segments {w : TreeWalker} (h : BaseInvariant w) :
    ∀ x ∈ enteredNames w.stack, isSegment x := by
  obtain ⟨_, h2, h3⟩ := h
  intro x hx
  obtain ⟨g, hg, rfl⟩ := List.mem_map.1 hx
  have hgp := h2 g hg
  have hlt : g.pos - 1 < g.t.Entries.length := by omega
  refine h3 g (List.mem_of_mem_dropLast hg) _ ?_
  rw [List.getD_eq_getElem _ _ hlt]
  exact List.getElem_mem _

/-- In every state reached from `NewTreeWalker` by calls of `Next`, over trees whose
entry names are single segments, the invariant of `base` holds: `base` stands for the
names of the entries through which the subtree frames on the stack were entered. -/
theorem calls_baseInvariant (m : Nat) (r : Repository) (t : Tree)
    (hroot : ∀ e ∈ t.Entries, isSegment e.Name)
    (hnames : ∀ h s, r.resolve h = .object (.tree s) → ∀ e ∈ s.Entries, isSegment e.Name) :
    ∀ (n : Nat), ∃ res w, calls m n (NewTreeWalker r t) = some (res, w) ∧
      BaseInvariant w := by
  have hgen : ∀ (n : Nat) (w : TreeWalker), w.r = r → BaseInvariant w →
      ∃ res w1, calls m n w = some (res, w1) ∧ BaseInvariant w1 := by
    intro n
    induction n with
    | zero => intro w _ hi; exact ⟨[], w, rfl, hi⟩
    | succ n ih =>
      intro w hr hi
      obtain ⟨r1, w1, hN⟩ := Next_total m w
      obtain ⟨hi1, hr1⟩ := Next_baseInvariant m w w1 r1 (by rw [hr]; exact hnames) hN hi
      obtain ⟨res, w2, hc, hi2⟩ := ih w1 (hr1.trans hr) hi1
      exact ⟨r1 :: res, w2, by simp [calls, hN, hc], hi2⟩
  intro n
  have h0 : BaseInvariant (NewTreeWalker r t) := by
    refine ⟨Or.inl ⟨rfl, Or.inl rfl⟩, by simp [NewTreeWalker], ?_⟩
    intro f hf
    simp only [NewTreeWalker, List.nil_append, List.mem_singleton] at hf
    subst hf
    exact hroot
  exact hgen n (NewTreeWalker r t) rfl h0

theorem enteredNames_short (stack : List treeEntryIter) (h : stack.length ≤ 1) :
    enteredNames stack = [] := by
  match stack, h with
  | [], _ => rfl
  | [f], _ => rfl

/-- C11: if `Next` returns an error other than `io.EOF`, or the callback returns an error
other than `core.ErrStop`, `ForEach` returns exactly that error, with the walker as that
call of `Next` left it and no further invocation of the callback; and every error
`ForEach` returns arises in one of these two ways. -/
theorem C11_forEach_propagates_errors (m : Nat) (cb : Callback) (fuel : Nat)
    (w w1 : TreeWalker) (log : List (GoString × TreeEntry)) (res : NextResult)
    (h : Next m w = some (res, w1)) :
    (∀ e, res.err = some e → e ≠ .EOF →
      ForEach m cb (fuel + 1) w log = some (some e, w1, log)) ∧
    (∀ e, res.err = none → cb log res.name res.entry = some e → e ≠ .ErrStop →
      ForEach m cb (fuel + 1) w log = some (some e, w1, log ++ [(res.name, res.entry)])) ∧
    (∀ fuel0 w0 log0 e wf logf, ForEach m cb fuel0 w0 log0 = some (some e, wf, logf) →
      ∃ wl resl hist, Next m wl = some (resl, wf) ∧
        ((resl.err = some e ∧ e ≠ .EOF ∧ logf = hist) ∨
         (resl.err = none ∧ cb hist resl.name resl.entry = some e ∧ e ≠ .ErrStop ∧
            logf = hist ++ [(resl.name, resl.entry)]))) :=
  ⟨fun e he hne => ForEach_next_error m cb fuel w w1 log res e h he hne,
   fun e he hcb hne => ForEach_callback_error m cb fuel w w1 log res e h he hcb hne,
   fun fuel0 w0 log0 e wf logf hf => ForEach_error_origin m cb fuel0 w0 log0 e wf logf hf⟩

/-- Witness of C11: the store fails on the hash of `sub`, and `ForEach` returns that
failure without invoking the callback. -/
theorem C11_witness :
    ForEach 1024 (fun _ _ _ => none) (0 + 1) ⟨[⟨exRoot, 1⟩], [], exFailingRepo, exRoot⟩ []
      = some (some (.other 7), ⟨[⟨exRoot, 2⟩], [], exFailingRepo, exRoot⟩, []) :=
  (C11_forEach_propagates_errors 1024 (fun _ _ _ => none) 0
    ⟨[⟨exRoot, 1⟩], [], exFailingRepo, exRoot⟩ ⟨[⟨exRoot, 2⟩], [], exFailingRepo, exRoot⟩ []
    ⟨"sub".toList, ⟨"sub".toList, 0, 2⟩, none, some (.other 7)⟩ rfl).1 (.other 7) rfl
    (by decide)

/-- C17 (as amended): in every walker state reached from `NewTreeWalker` by calls of
`Next`, over trees whose entry names are single path segments, `base` stands for the
names of the entries through which the subtree frames on the stack were entered: it is
these names joined by slashes when there are any, and it is `""` or `"."` when there are
none, so whenever only the root frame is on the stack; in either case `path.Join` of
`base` and an entry name is the entered names and that name joined by slashes. -/
theorem C17_base_invariant (m : Nat) (r : Repository) (t : Tree)
    (hroot : ∀ e ∈ t.Entries, isSegment e.Name)
    (hnames : ∀ h s, r.resolve h = .object (.tree s) → ∀ e ∈ s.Entries, isSegment e.Name)
    (n : Nat) :
    ∃ res w, calls m n (NewTreeWalker r t) = some (res, w) ∧
      ((enteredNames w.stack = [] ∧ (w.base = [] ∨ w.base = ".".toList)) ∨
        (enteredNames w.stack ≠ [] ∧ w.base = path.joinSlash (enteredNames w.stack))) ∧
      (w.stack.length ≤ 1 → w.base = [] ∨ w.base = ".".toList) ∧
      (∀ name, isSegment name →
        path.Join [w.base, name] = path.joinSlash (enteredNames w.stack ++ [name])) := by
  obtain ⟨res, w, hc, hi⟩ := calls_baseInvariant m r t hroot hnames n
  refine ⟨res, w, hc, hi.1, fun hl => ?_, fun name hname => ?_⟩
  · rcases hi.1 with ⟨_, hb⟩ | ⟨hne, _⟩
    · exact hb
    · exact absurd (enteredNames_short w.stack hl) hne
  · exact Join_represents w.base name _ hi.1 hi.entered_segments hname

/-- Witness of C17 on the example with `c.txt` after `sub`. -/
theorem C17_witness :
    (∀ e ∈ exRootAfter.Entries, isSegment e.Name) ∧
    ∃ res w, calls 1024 3 (NewTreeWalker exRepo exRootAfter) = some (res, w) ∧
      ((enteredNames w.stack = [] ∧ (w.base = [] ∨ w.base = ".".toList)) ∨
        (enteredNames w.stack ≠ [] ∧ w.base = path.joinSlash (enteredNames w.stack))) ∧
      (w.stack.length ≤ 1 → w.base = [] ∨ w.base = ".".toList) ∧
      (∀ name, isSegment name →
        path.Join [w.base, name] = path.joinSlash (enteredNames w.stack ++ [name])) :=
  ⟨by decide, C17_base_invariant 1024 exRepo exRootAfter (by decide) exRepo_names 3⟩

/-- Counterexample to C17 as stated: in the example with `c.txt` after `sub`, the third
call of `Next` leaves `sub` and yields `c.txt`; only the root frame is then on the stack,
no subtree frame has been entered, and `base` is `"."`, not the empty string. -/
theorem C17_base_after_ascent :
    (calls 1024 3 (NewTreeWalker exRepo exRootAfter)).map
        (fun p => (p.1.map (fun v => v.name), p.2.stack, p.2.base))
      = some (["sub".toList, "sub/b.txt".toList, "c.txt".toList],
          [⟨exRootAfter, 2⟩], ".".toList) ∧
    enteredNames [⟨exRootAfter, 2⟩] = [] ∧ ".".toList ≠ path.joinSlash [] ∧
    ".".toList ≠ ([] : GoString) := by
  decide

/-- C20: `ForEach` terminates on every store and from every walker state: within as many
iterations as the walker has results before its stack is exhausted or too deep, plus
one, it returns, and more iterations change nothing; it returns nil, `ErrMaxTreeDepth`,
a failure of the store, or an error of the callback. -/
theorem C20_forEach_terminates (m : Nat) (cb : Callback) (w : TreeWalker)
    (log : List (GoString × TreeEntry)) :
    ∃ fuel out, fuel ≤ (procStack m w).events.length + 1 ∧
      (∀ more, ForEach m cb (fuel + more) w log = some out) ∧
      (out.1 = none ∨ out.1 = some .ErrMaxTreeDepth ∨ (∃ c, out.1 = some (.other c)) ∨
        ∃ hist p e, cb hist p e = out.1) := by
  obtain ⟨out, hout⟩ := ForEach_terminates m cb (procStack m w).events.length w log (le_refl _)
  refine ⟨_, out, le_refl _, hout, ?_⟩
  obtain ⟨err, wf, logf⟩ := out
  cases err with
  | none => exact Or.inl rfl
  | some e =>
    obtain ⟨wl, resl, hist, hN, h | h⟩ := ForEach_error_origin m cb _ w log e wf logf (hout 0)
    · obtain ⟨he, hne, _⟩ := h
      rcases Next_err_cases m wl wf resl hN with h1 | h1 | h1 | ⟨c, h1⟩
      · rw [he] at h1; cases h1
      · rw [he] at h1; cases h1; exact absurd rfl hne
      · rw [he] at h1; cases h1; exact Or.inr (Or.inl rfl)
      · rw [he] at h1; cases h1; exact Or.inr (Or.inr (Or.inl ⟨c, rfl⟩))
    · obtain ⟨_, hcb, _, _⟩ := h
      exact Or.inr (Or.inr (Or.inr ⟨hist, _, _, hcb⟩))

end GoGit
